import Mathlib

/-!
# busywaiting_barrier.hpp : spinlock and busy-waiting barrier

A shallow embedding of `SimulationRuntime/cpp/Include/Core/Utils/extension/busywaiting_barrier.hpp`.

Every shared read, store, `fetch_sub` and `fetch_add` of the source is one atomic step of one
thread; a state holds the shared fields of the object together with, for every thread, the
place in the code it has reached.  Interleavings are the sequences of such steps.  The `int`
fields are 32-bit: the atomic read-modify-write operations wrap around (`wrap32`).
-/

set_option autoImplicit false

/-! ## 32-bit integers -/

/-- Two's-complement wrap of an integer into the range of a 32-bit `int`. -/
def wrap32 (x : Int) : Int := (x + 2147483648) % 4294967296 - 2147483648

/-- Pointwise update of a per-thread table. -/
def setAt {α : Type} (f : Nat → α) (i : Nat) (v : α) : Nat → α :=
  fun j => if j = i then v else f j

/-! ## class spinlock -/

namespace Spinlock

/-- Where a thread stands relative to `lock()` / `unlock()`. -/
inductive Loc where
  /-- not in `lock()`, not holding the lock -/
  | outside
  /-- in `lock()` at the test of `while(locked) {}` -/
  | testing
  /-- in `lock()`, the loop was left, before the store `locked = true` -/
  | claiming
  /-- returned from `lock()`, `unlock()` not yet called -/
  | holding
  deriving DecidableEq, Repr

/-- The field `locked` and the place of every thread. -/
structure State where
  locked : Bool
  loc : Nat → Loc

/-- Constructor `spinlock() : locked(false)`; no thread has called anything yet. -/
def spinlock : State := { locked := false, loc := fun _ => Loc.outside }

/-- One atomic step of thread `i`. -/
def step (s : State) (i : Nat) : State :=
  match s.loc i with
  | Loc.outside => { s with loc := setAt s.loc i Loc.testing }
  | Loc.testing => if s.locked then s else { s with loc := setAt s.loc i Loc.claiming }
  | Loc.claiming => { locked := true, loc := setAt s.loc i Loc.holding }
  | Loc.holding => { locked := false, loc := setAt s.loc i Loc.outside }

/-- The state after the threads named in the schedule have stepped in that order. -/
def run (s : State) (sched : List Nat) : State := sched.foldl step s

end Spinlock

/-! ## class busywaiting_barrier -/

namespace Barrier

/-- Where a thread stands in `wait()`: the next atomic step it will perform. -/
inductive PC where
  /-- outside `wait()` (before a call, or between two calls) -/
  | idle
  /-- line 49: test of `while(!ready) {}` -/
  | spinReady
  /-- line 51: `counterValue.fetch_sub(1)` -/
  | fetchSub
  /-- line 55: `ready = false` -/
  | closeGate
  /-- line 60: test of `while(counterValue.load() > 0)` -/
  | spinCount
  /-- line 69: `counterValueRelease.fetch_add(1)` -/
  | fetchAdd
  /-- line 71: `counterValue.store(counterValueMax)` -/
  | storeCount
  /-- line 72: `counterValueRelease.store(0)` -/
  | storeRelease
  /-- line 73: `ready = true` -/
  | openGate
  /-- line 79: test of `while(counterValueRelease.load() > 0) {}` -/
  | spinRelease
  deriving DecidableEq, Repr

/-- The four fields of the object, the place of every thread, and the number of calls of
`wait()` every thread has returned from. -/
structure State where
  counterValue : Int
  counterValueRelease : Int
  ready : Bool
  counterValueMax : Int
  pc : Nat → PC
  done : Nat → Nat

/-- Constructor (line 43); all threads are outside `wait()` and have completed no call. -/
def busywaiting_barrier (counterValueMax : Int) : State :=
  { counterValue := counterValueMax
    counterValueRelease := 0
    ready := true
    counterValueMax := counterValueMax
    pc := fun _ => PC.idle
    done := fun _ => 0 }

/-- Thread `i` moves to place `p`. -/
def goto (s : State) (i : Nat) (p : PC) : State := { s with pc := setAt s.pc i p }

/-- One atomic step of thread `i` in `wait()` (lines 46-80).  A poll of a spin loop whose
condition still holds leaves the state unchanged. -/
def step (s : State) (i : Nat) : State :=
  match s.pc i with
  | PC.idle => goto s i PC.spinReady
  | PC.spinReady => if s.ready then goto s i PC.fetchSub else s
  | PC.fetchSub =>
      if s.counterValue = 1 then
        goto { s with counterValue := wrap32 (s.counterValue - 1) } i PC.closeGate
      else
        goto { s with counterValue := wrap32 (s.counterValue - 1) } i PC.spinCount
  | PC.closeGate => goto { s with ready := false } i PC.spinCount
  | PC.spinCount => if s.counterValue > 0 then s else goto s i PC.fetchAdd
  | PC.fetchAdd =>
      if s.counterValueRelease = wrap32 (s.counterValueMax - 1) then
        goto { s with counterValueRelease := wrap32 (s.counterValueRelease + 1) } i PC.storeCount
      else
        goto { s with counterValueRelease := wrap32 (s.counterValueRelease + 1) } i PC.spinRelease
  | PC.storeCount => goto { s with counterValue := s.counterValueMax } i PC.storeRelease
  | PC.storeRelease => goto { s with counterValueRelease := 0 } i PC.openGate
  | PC.openGate => goto { s with ready := true } i PC.spinRelease
  | PC.spinRelease =>
      if s.counterValueRelease > 0 then s
      else { goto s i PC.idle with done := setAt s.done i (s.done i + 1) }

/-- The state after the threads named in the schedule have stepped in that order. -/
def run (s : State) (sched : List Nat) : State := sched.foldl step s

/-- The states `T` threads (numbered `0 .. T-1`) can bring a barrier constructed with `N`
into, under any interleaving. -/
inductive Reachable (T : Nat) (N : Int) : State → Prop
  | init : Reachable T N (busywaiting_barrier N)
  | step {s : State} {i : Nat} : Reachable T N s → i < T → Reachable T N (step s i)

/-- Number of threads among `0 .. T-1` that stand at place `X`. -/
def cnt (pc : Nat → PC) (X : PC) : Nat → Nat
  | 0 => 0
  | T + 1 => cnt pc X T + (if pc T = X then 1 else 0)

/-- Number of calls of `wait()` thread `i` has got through as far as the clearing of
`counterValueRelease` is concerned: the calls it returned from, and the current one when the
thread is past the store `counterValueRelease = 0` of that call's round. -/
def passed (s : State) (i : Nat) : Nat :=
  s.done i +
    (if s.pc i = PC.openGate ∨ (s.pc i = PC.spinRelease ∧ s.counterValueRelease = 0) then 1 else 0)

/-- Number of decrements of `counterValue` thread `i` has performed. -/
def decrements (s : State) (i : Nat) : Nat :=
  s.done i +
    (if s.pc i = PC.idle ∨ s.pc i = PC.spinReady ∨ s.pc i = PC.fetchSub then 0 else 1)

/-- Thread `i` is at a spin loop whose condition holds: its step is a failed poll. -/
def blocked (s : State) (i : Nat) : Bool :=
  match s.pc i with
  | PC.spinReady => !s.ready
  | PC.spinCount => decide (s.counterValue > 0)
  | PC.spinRelease => decide (s.counterValueRelease > 0)
  | _ => false

/-- Arrival phase: `counterValueRelease` is zero.  Threads are outside `wait()`, at the entry
spin, decrementing `counterValue` or waiting for it to reach zero; the thread that cleared
`counterValueRelease` may still have to reopen the gate, and threads of the round before may
still stand at the final spin. -/
def Arriving (N : Nat) (s : State) : Prop :=
  s.counterValueRelease = 0
  ∧ cnt s.pc PC.storeCount N = 0
  ∧ cnt s.pc PC.storeRelease N = 0
  ∧ s.counterValue
      = (N : Int) - ((cnt s.pc PC.closeGate N + cnt s.pc PC.spinCount N
          + cnt s.pc PC.fetchAdd N : Nat) : Int)
  ∧ cnt s.pc PC.openGate N ≤ 1
  ∧ (cnt s.pc PC.openGate N = 1 →
      cnt s.pc PC.fetchSub N + cnt s.pc PC.closeGate N + cnt s.pc PC.spinCount N
        + cnt s.pc PC.fetchAdd N = 0)
  ∧ (cnt s.pc PC.openGate N = 1 → s.ready = false)
  ∧ (1 ≤ cnt s.pc PC.fetchAdd N → s.counterValue = 0)
  ∧ cnt s.pc PC.closeGate N ≤ 1
  ∧ (cnt s.pc PC.closeGate N = 1 → s.counterValue = 0)
  ∧ (s.ready = false →
      cnt s.pc PC.openGate N = 1 ∨ (s.counterValue = 0 ∧ cnt s.pc PC.closeGate N = 0))
  ∧ (s.ready = true → s.counterValue = 0 → cnt s.pc PC.closeGate N = 1)

/-- Departure phase: `counterValueRelease` is positive.  All threads have decremented
`counterValue`; those that have incremented `counterValueRelease` are counted by it. -/
def Leaving (N : Nat) (s : State) : Prop :=
  0 < s.counterValueRelease
  ∧ cnt s.pc PC.idle N = 0
  ∧ cnt s.pc PC.spinReady N = 0
  ∧ cnt s.pc PC.fetchSub N = 0
  ∧ cnt s.pc PC.openGate N = 0
  ∧ s.counterValueRelease
      = ((cnt s.pc PC.storeCount N + cnt s.pc PC.storeRelease N
          + cnt s.pc PC.spinRelease N : Nat) : Int)
  ∧ cnt s.pc PC.storeCount N + cnt s.pc PC.storeRelease N ≤ 1
  ∧ (cnt s.pc PC.storeCount N + cnt s.pc PC.storeRelease N = 1 →
      cnt s.pc PC.spinRelease N + 1 = N)
  ∧ (cnt s.pc PC.storeRelease N = 1 → s.counterValue = N)
  ∧ (cnt s.pc PC.storeRelease N = 0 → s.counterValue = 0)
  ∧ (cnt s.pc PC.storeCount N + cnt s.pc PC.storeRelease N = 0 →
      s.counterValueRelease < N)
  ∧ cnt s.pc PC.closeGate N ≤ 1
  ∧ (s.ready = true → cnt s.pc PC.closeGate N = 1)
  ∧ (s.ready = false → cnt s.pc PC.closeGate N = 0)

/-- The counters, the gate and the places of the threads fit together. -/
def Counted (N : Nat) (s : State) : Prop :=
  s.counterValueMax = N ∧ (Arriving N s ∨ Leaving N s)

/-- All threads have got through the same number of rounds. -/
def Synced (N : Nat) (s : State) : Prop :=
  ∀ i j, i < N → j < N → passed s i = passed s j

/-- The invariant of a barrier constructed with `N` and used by exactly `N` threads. -/
def Inv (N : Nat) (s : State) : Prop := Counted N s ∧ Synced N s

/-- Fewer threads (`k`) than the barrier was constructed for (`N`): nobody has got past the
spin on `counterValue`, which counts the threads standing at it. -/
def Short (N : Int) (k : Nat) (s : State) : Prop :=
  s.counterValueMax = N ∧ s.counterValueRelease = 0 ∧ s.ready = true
  ∧ s.counterValue = N - (cnt s.pc PC.spinCount k : Int)
  ∧ cnt s.pc PC.closeGate k = 0 ∧ cnt s.pc PC.fetchAdd k = 0
  ∧ cnt s.pc PC.storeCount k = 0 ∧ cnt s.pc PC.storeRelease k = 0
  ∧ cnt s.pc PC.openGate k = 0 ∧ cnt s.pc PC.spinRelease k = 0
  ∧ ∀ i, s.done i = 0

/-- A barrier constructed with a non-positive `N`, used by `T` threads: the gate is never
closed, the reset is never run, `counterValueRelease` counts the threads at the final spin and
`counterValue` is `N` minus the decrements (wrapped). -/
def Stuck (N : Int) (T : Nat) (s : State) : Prop :=
  s.counterValueMax = N ∧ s.ready = true
  ∧ s.counterValueRelease = (cnt s.pc PC.spinRelease T : Int)
  ∧ s.counterValue
      = wrap32 (N - ((cnt s.pc PC.spinCount T + cnt s.pc PC.fetchAdd T
          + cnt s.pc PC.spinRelease T : Nat) : Int))
  ∧ cnt s.pc PC.closeGate T = 0 ∧ cnt s.pc PC.storeCount T = 0
  ∧ cnt s.pc PC.storeRelease T = 0 ∧ cnt s.pc PC.openGate T = 0
  ∧ ∀ i, s.done i = 0

/-- Number of increments of `counterValueRelease` thread `i` has performed. -/
def increments (s : State) (i : Nat) : Nat :=
  s.done i +
    (if s.pc i = PC.storeCount ∨ s.pc i = PC.storeRelease ∨ s.pc i = PC.openGate
        ∨ s.pc i = PC.spinRelease then 1 else 0)

/-- Number of times the reset block (lines 71-73) has been entered: the rounds whose store
`counterValueRelease = 0` is done (the same for all threads of a reachable state, read off
thread 0), and one more while a thread stands at that store or at the one before it. -/
def resets (N : Nat) (s : State) : Nat :=
  passed s 0 +
    (if 1 ≤ cnt s.pc PC.storeCount N + cnt s.pc PC.storeRelease N then 1 else 0)

/-- The fields of a state, spelled out. -/
def Shape (s : State) (cv cvr : Int) (rdy : Bool) (mx : Int) (pcf : Nat → PC)
    (dn : Nat → Nat) : Prop :=
  s.counterValue = cv ∧ s.counterValueRelease = cvr ∧ s.ready = rdy ∧ s.counterValueMax = mx
    ∧ (∀ i, s.pc i = pcf i) ∧ (∀ i, s.done i = dn i)

/-- Threads `0 .. j-1` arrive one after the other: each calls `wait()`, passes the entry spin
and decrements `counterValue`. -/
def arrivals : Nat → List Nat
  | 0 => []
  | j + 1 => arrivals j ++ [j, j, j]

/-- Threads `0 .. j-1` one after the other leave the spin on `counterValue` and increment
`counterValueRelease`. -/
def departures : Nat → List Nat
  | 0 => []
  | j + 1 => departures j ++ [j, j]

/-- Threads `0 .. j-1` one after the other poll the final spin once. -/
def returns : Nat → List Nat
  | 0 => []
  | j + 1 => returns j ++ [j]

/-- An interleaving in which threads `0 .. n` run one round among themselves: `0 .. n-1`
arrive, `n` arrives last and closes the gate, `0 .. n-1` depart, `n` departs last, resets and
returns, `0 .. n-1` return. -/
def oneRound (n : Nat) : List Nat :=
  arrivals n ++ [n, n, n, n] ++ departures n ++ [n, n, n, n, n, n] ++ returns n

end Barrier

/-! ## Counting threads -/

namespace Barrier

theorem setAt_same {α : Type} (f : Nat → α) (i : Nat) (v : α) : setAt f i v i = v := by
  simp [setAt]

theorem setAt_other {α : Type} (f : Nat → α) (i j : Nat) (v : α) (h : j ≠ i) :
    setAt f i v j = f j := by
  simp [setAt, h]

theorem cnt_setAt_ge (pc : Nat → PC) (i : Nat) (Y Z : PC) (T : Nat) (h : T ≤ i) :
    cnt (setAt pc i Y) Z T = cnt pc Z T := by
  induction T with
  | zero => rfl
  | succ T ih =>
    have hne : T ≠ i := by omega
    simp only [cnt, setAt_other pc i T Y hne]
    rw [ih (by omega)]

/-- Moving thread `i` to place `Y` removes it from the count of its old place and adds it to
the count of `Y`. -/
theorem cnt_setAt (pc : Nat → PC) (i : Nat) (Y Z : PC) (T : Nat) (h : i < T) :
    cnt (setAt pc i Y) Z T + (if pc i = Z then 1 else 0)
      = cnt pc Z T + (if Y = Z then 1 else 0) := by
  induction T with
  | zero => omega
  | succ T ih =>
    by_cases hT : i = T
    · subst hT
      simp only [cnt, setAt_same, cnt_setAt_ge pc i Y Z i (Nat.le_refl i)]
      omega
    · have hlt : i < T := by omega
      have hne : T ≠ i := fun e => hT e.symm
      have := ih hlt
      simp only [cnt, setAt_other pc i T Y hne]
      omega

theorem cnt_pos (pc : Nat → PC) (X : PC) (T i : Nat) (hi : i < T) (h : pc i = X) :
    1 ≤ cnt pc X T := by
  induction T with
  | zero => omega
  | succ T ih =>
    by_cases hT : i = T
    · subst hT
      simp [cnt, h]
    · have := ih (by omega)
      simp only [cnt]
      omega

theorem ne_of_cnt_zero (pc : Nat → PC) (X : PC) (T i : Nat) (hi : i < T)
    (h : cnt pc X T = 0) : pc i ≠ X := by
  intro e
  have := cnt_pos pc X T i hi e
  omega

theorem exists_of_cnt_pos (pc : Nat → PC) (X : PC) (T : Nat) (h : 1 ≤ cnt pc X T) :
    ∃ i, i < T ∧ pc i = X := by
  induction T with
  | zero => simp [cnt] at h
  | succ T ih =>
    by_cases hT : pc T = X
    · exact ⟨T, by omega, hT⟩
    · simp only [cnt, hT, if_false, Nat.add_zero] at h
      obtain ⟨i, hi, e⟩ := ih h
      exact ⟨i, by omega, e⟩

/-- Every thread stands at exactly one place. -/
theorem cnt_total (pc : Nat → PC) (T : Nat) :
    cnt pc PC.idle T + cnt pc PC.spinReady T + cnt pc PC.fetchSub T + cnt pc PC.closeGate T
      + cnt pc PC.spinCount T + cnt pc PC.fetchAdd T + cnt pc PC.storeCount T
      + cnt pc PC.storeRelease T + cnt pc PC.openGate T + cnt pc PC.spinRelease T = T := by
  induction T with
  | zero => rfl
  | succ T ih =>
    simp only [cnt]
    cases h : pc T <;> simp <;> omega

end Barrier

/-! ## The invariant for exactly `N` threads on a barrier constructed with `N` -/

namespace Barrier

/-- The ten instances of a statement about all places. -/
theorem forall_pc {P : PC → Prop} (h : ∀ Z, P Z) :
    P PC.idle ∧ P PC.spinReady ∧ P PC.fetchSub ∧ P PC.closeGate ∧ P PC.spinCount
      ∧ P PC.fetchAdd ∧ P PC.storeCount ∧ P PC.storeRelease ∧ P PC.openGate
      ∧ P PC.spinRelease :=
  ⟨h _, h _, h _, h _, h _, h _, h _, h _, h _, h _⟩

/-- The counts of all places after thread `i` has moved from `X` to `Y`. -/
theorem cnt_move (pc : Nat → PC) (i T : Nat) (X Y : PC) (hi : i < T) (hX : pc i = X) :
    ∀ Z, cnt (setAt pc i Y) Z T + (if X = Z then 1 else 0)
      = cnt pc Z T + (if Y = Z then 1 else 0) := by
  intro Z
  have := cnt_setAt pc i Y Z T hi
  rw [hX] at this
  exact this

end Barrier

/-! ## The invariant is kept by every step -/

namespace Barrier

theorem wrap32_eq (x : Int) (h1 : -2147483648 ≤ x) (h2 : x < 2147483648) : wrap32 x = x := by
  unfold wrap32
  omega

set_option maxHeartbeats 1000000 in
theorem counted_step_idle {N : Nat} {s : State} {i : Nat} (_ : N < 2147483648)
    (h : Counted N s) (hi : i < N) (hpc : s.pc i = PC.idle) : Counted N (step s i) := by
  obtain ⟨hmax, hph⟩ := h
  have tot := cnt_total s.pc N
  have pos := cnt_pos s.pc (s.pc i) N i hi rfl
  rw [hpc] at pos
  simp only [step, hpc]
  obtain ⟨m0, m1, m2, m3, m4, m5, m6, m7, m8, m9⟩ :=
    forall_pc (cnt_move s.pc i N PC.idle PC.spinReady hi hpc)
  simp only [reduceCtorEq, if_true, if_false] at m0 m1 m2 m3 m4 m5 m6 m7 m8 m9
  refine ⟨hmax, ?_⟩
  simp only [Arriving, Leaving, goto, hmax] at hph ⊢
  rcases hph with hA | hB
  · left
    cases hr : s.ready <;>
      simp only [hr, reduceCtorEq, false_implies, true_implies, Bool.false_eq_true, Bool.true_eq_false, imp_true_iff, imp_false, true_and, and_true] at hA ⊢ <;> omega
  · exfalso; omega

set_option maxHeartbeats 1000000 in
theorem counted_step_spinReady {N : Nat} {s : State} {i : Nat} (_ : N < 2147483648)
    (h : Counted N s) (hi : i < N) (hpc : s.pc i = PC.spinReady) : Counted N (step s i) := by
  obtain ⟨hmax, hph⟩ := h
  have tot := cnt_total s.pc N
  have pos := cnt_pos s.pc (s.pc i) N i hi rfl
  rw [hpc] at pos
  simp only [step, hpc]
  by_cases hr : s.ready = true
  · rw [if_pos hr]
    obtain ⟨m0, m1, m2, m3, m4, m5, m6, m7, m8, m9⟩ :=
      forall_pc (cnt_move s.pc i N PC.spinReady PC.fetchSub hi hpc)
    simp only [reduceCtorEq, if_true, if_false] at m0 m1 m2 m3 m4 m5 m6 m7 m8 m9
    refine ⟨hmax, ?_⟩
    simp only [Arriving, Leaving, goto, hmax] at hph ⊢
    rcases hph with hA | hB
    · left
      simp only [hr, reduceCtorEq, false_implies, true_implies, Bool.false_eq_true, Bool.true_eq_false, imp_true_iff, imp_false, true_and, and_true] at hA ⊢ 
      omega
    · exfalso; omega
  · rw [if_neg hr]
    exact ⟨hmax, hph⟩

set_option maxHeartbeats 1000000 in
theorem counted_step_fetchSub {N : Nat} {s : State} {i : Nat} (hN : N < 2147483648)
    (h : Counted N s) (hi : i < N) (hpc : s.pc i = PC.fetchSub) : Counted N (step s i) := by
  obtain ⟨hmax, hph⟩ := h
  have tot := cnt_total s.pc N
  have pos := cnt_pos s.pc (s.pc i) N i hi rfl
  rw [hpc] at pos
  simp only [step, hpc]
  have hb : 1 ≤ s.counterValue ∧ s.counterValue < 2147483648 := by
    simp only [Arriving, Leaving] at hph
    rcases hph with hA | hB <;> omega
  rw [wrap32_eq (s.counterValue - 1) (by omega) (by omega)]
  by_cases hc : s.counterValue = 1
  · rw [if_pos hc]
    obtain ⟨m0, m1, m2, m3, m4, m5, m6, m7, m8, m9⟩ :=
      forall_pc (cnt_move s.pc i N PC.fetchSub PC.closeGate hi hpc)
    simp only [reduceCtorEq, if_true, if_false] at m0 m1 m2 m3 m4 m5 m6 m7 m8 m9
    refine ⟨hmax, ?_⟩
    simp only [Arriving, Leaving, goto, hmax] at hph ⊢
    rcases hph with hA | hB
    · left
      cases hr : s.ready <;>
        simp only [hr, reduceCtorEq, false_implies, true_implies, Bool.false_eq_true, Bool.true_eq_false, imp_true_iff, imp_false, true_and, and_true] at hA ⊢ <;> omega
    · exfalso; omega
  · rw [if_neg hc]
    obtain ⟨m0, m1, m2, m3, m4, m5, m6, m7, m8, m9⟩ :=
      forall_pc (cnt_move s.pc i N PC.fetchSub PC.spinCount hi hpc)
    simp only [reduceCtorEq, if_true, if_false] at m0 m1 m2 m3 m4 m5 m6 m7 m8 m9
    refine ⟨hmax, ?_⟩
    simp only [Arriving, Leaving, goto, hmax] at hph ⊢
    rcases hph with hA | hB
    · left
      cases hr : s.ready <;>
        simp only [hr, reduceCtorEq, false_implies, true_implies, Bool.false_eq_true, Bool.true_eq_false, imp_true_iff, imp_false, true_and, and_true] at hA ⊢ <;> omega
    · exfalso; omega

set_option maxHeartbeats 1000000 in
theorem counted_step_closeGate {N : Nat} {s : State} {i : Nat} (hN : N < 2147483648)
    (h : Counted N s) (hi : i < N) (hpc : s.pc i = PC.closeGate) : Counted N (step s i) := by
  obtain ⟨hmax, hph⟩ := h
  have tot := cnt_total s.pc N
  have pos := cnt_pos s.pc (s.pc i) N i hi rfl
  rw [hpc] at pos
  simp only [step, hpc]
  obtain ⟨m0, m1, m2, m3, m4, m5, m6, m7, m8, m9⟩ :=
    forall_pc (cnt_move s.pc i N PC.closeGate PC.spinCount hi hpc)
  simp only [reduceCtorEq, if_true, if_false] at m0 m1 m2 m3 m4 m5 m6 m7 m8 m9
  refine ⟨hmax, ?_⟩
  simp only [Arriving, Leaving, goto, hmax] at hph ⊢
  rcases hph with hA | hB
  · left
    cases hr : s.ready <;>
      simp only [hr, reduceCtorEq, false_implies, true_implies, Bool.false_eq_true, Bool.true_eq_false, imp_true_iff, imp_false, true_and, and_true] at hA ⊢ <;> omega
  · right
    cases hr : s.ready <;>
      simp only [hr, reduceCtorEq, false_implies, true_implies, Bool.false_eq_true, Bool.true_eq_false, imp_true_iff, imp_false, true_and, and_true] at hB ⊢ <;> omega

set_option maxHeartbeats 1000000 in
theorem counted_step_spinCount {N : Nat} {s : State} {i : Nat} (hN : N < 2147483648)
    (h : Counted N s) (hi : i < N) (hpc : s.pc i = PC.spinCount) : Counted N (step s i) := by
  obtain ⟨hmax, hph⟩ := h
  have tot := cnt_total s.pc N
  have pos := cnt_pos s.pc (s.pc i) N i hi rfl
  rw [hpc] at pos
  simp only [step, hpc]
  by_cases hc : s.counterValue > 0
  · rw [if_pos hc]
    exact ⟨hmax, hph⟩
  · rw [if_neg hc]
    obtain ⟨m0, m1, m2, m3, m4, m5, m6, m7, m8, m9⟩ :=
      forall_pc (cnt_move s.pc i N PC.spinCount PC.fetchAdd hi hpc)
    simp only [reduceCtorEq, if_true, if_false] at m0 m1 m2 m3 m4 m5 m6 m7 m8 m9
    refine ⟨hmax, ?_⟩
    simp only [Arriving, Leaving, goto, hmax] at hph ⊢
    rcases hph with hA | hB
    · left
      cases hr : s.ready <;>
        simp only [hr, reduceCtorEq, false_implies, true_implies, Bool.false_eq_true, Bool.true_eq_false, imp_true_iff, imp_false, true_and, and_true] at hA ⊢ <;> omega
    · right
      cases hr : s.ready <;>
        simp only [hr, reduceCtorEq, false_implies, true_implies, Bool.false_eq_true, Bool.true_eq_false, imp_true_iff, imp_false, true_and, and_true] at hB ⊢ <;> omega

set_option maxHeartbeats 1000000 in
theorem counted_step_fetchAdd {N : Nat} {s : State} {i : Nat} (hN : N < 2147483648)
    (h : Counted N s) (hi : i < N) (hpc : s.pc i = PC.fetchAdd) : Counted N (step s i) := by
  obtain ⟨hmax, hph⟩ := h
  have tot := cnt_total s.pc N
  have pos := cnt_pos s.pc (s.pc i) N i hi rfl
  rw [hpc] at pos
  simp only [step, hpc]
  have hb : 0 ≤ s.counterValueRelease ∧ s.counterValueRelease + 1 < 2147483648 := by
    simp only [Arriving, Leaving] at hph
    rcases hph with hA | hB <;> omega
  rw [hmax, wrap32_eq ((N : Int) - 1) (by omega) (by omega),
    wrap32_eq (s.counterValueRelease + 1) (by omega) (by omega)]
  by_cases hc : s.counterValueRelease = (N : Int) - 1
  · rw [if_pos hc]
    obtain ⟨m0, m1, m2, m3, m4, m5, m6, m7, m8, m9⟩ :=
      forall_pc (cnt_move s.pc i N PC.fetchAdd PC.storeCount hi hpc)
    simp only [reduceCtorEq, if_true, if_false] at m0 m1 m2 m3 m4 m5 m6 m7 m8 m9
    refine ⟨rfl, ?_⟩
    simp only [Arriving, Leaving, goto, hmax] at hph ⊢
    rcases hph with hA | hB
    · right
      have hz : s.counterValue = 0 := by omega
      have h7 : cnt s.pc PC.openGate N = 0 := by omega
      simp only [hz, h7, Nat.zero_ne_one, false_implies, true_implies, zero_le, false_or] at hA
      cases hr : s.ready <;>
        simp only [hr, reduceCtorEq, false_implies, true_implies, Bool.false_eq_true, Bool.true_eq_false, imp_true_iff, imp_false, true_and, and_true] at hA ⊢ <;> omega
    · right
      have h5 : cnt s.pc PC.storeCount N = 0 := by omega
      have h6 : cnt s.pc PC.storeRelease N = 0 := by omega
      simp only [h5, h6, Nat.zero_ne_one, false_implies, true_implies, zero_add, add_zero, zero_le] at hB m6 m7
      cases hr : s.ready <;>
        simp only [hr, reduceCtorEq, false_implies, true_implies, Bool.false_eq_true, Bool.true_eq_false, imp_true_iff, imp_false, true_and, and_true] at hB ⊢ <;> omega
  · rw [if_neg hc]
    obtain ⟨m0, m1, m2, m3, m4, m5, m6, m7, m8, m9⟩ :=
      forall_pc (cnt_move s.pc i N PC.fetchAdd PC.spinRelease hi hpc)
    simp only [reduceCtorEq, if_true, if_false] at m0 m1 m2 m3 m4 m5 m6 m7 m8 m9
    refine ⟨rfl, ?_⟩
    simp only [Arriving, Leaving, goto, hmax] at hph ⊢
    rcases hph with hA | hB
    · right
      have hz : s.counterValue = 0 := by omega
      have h7 : cnt s.pc PC.openGate N = 0 := by omega
      simp only [hz, h7, Nat.zero_ne_one, false_implies, true_implies, zero_le, false_or] at hA
      cases hr : s.ready <;>
        simp only [hr, reduceCtorEq, false_implies, true_implies, Bool.false_eq_true, Bool.true_eq_false, imp_true_iff, imp_false, true_and, and_true] at hA ⊢ <;> omega
    · right
      have h5 : cnt s.pc PC.storeCount N = 0 := by omega
      have h6 : cnt s.pc PC.storeRelease N = 0 := by omega
      simp only [h5, h6, Nat.zero_ne_one, false_implies, true_implies, zero_add, add_zero, zero_le] at hB m6 m7
      cases hr : s.ready <;>
        simp only [hr, reduceCtorEq, false_implies, true_implies, Bool.false_eq_true, Bool.true_eq_false, imp_true_iff, imp_false, true_and, and_true] at hB ⊢ <;> omega

set_option maxHeartbeats 1000000 in
theorem counted_step_storeCount {N : Nat} {s : State} {i : Nat} (_ : N < 2147483648)
    (h : Counted N s) (hi : i < N) (hpc : s.pc i = PC.storeCount) : Counted N (step s i) := by
  obtain ⟨hmax, hph⟩ := h
  have tot := cnt_total s.pc N
  have pos := cnt_pos s.pc (s.pc i) N i hi rfl
  rw [hpc] at pos
  simp only [step, hpc]
  obtain ⟨m0, m1, m2, m3, m4, m5, m6, m7, m8, m9⟩ :=
    forall_pc (cnt_move s.pc i N PC.storeCount PC.storeRelease hi hpc)
  simp only [reduceCtorEq, if_true, if_false] at m0 m1 m2 m3 m4 m5 m6 m7 m8 m9
  refine ⟨hmax, ?_⟩
  simp only [Arriving, Leaving, goto, hmax] at hph ⊢
  rcases hph with hA | hB
  · exfalso; omega
  · right
    cases hr : s.ready <;>
      simp only [hr, reduceCtorEq, false_implies, true_implies, Bool.false_eq_true, Bool.true_eq_false, imp_true_iff, imp_false, true_and, and_true] at hB ⊢ <;> omega

set_option maxHeartbeats 1000000 in
theorem counted_step_storeRelease {N : Nat} {s : State} {i : Nat} (hN : N < 2147483648)
    (h : Counted N s) (hi : i < N) (hpc : s.pc i = PC.storeRelease) : Counted N (step s i) := by
  obtain ⟨hmax, hph⟩ := h
  have tot := cnt_total s.pc N
  have pos := cnt_pos s.pc (s.pc i) N i hi rfl
  rw [hpc] at pos
  simp only [step, hpc]
  obtain ⟨m0, m1, m2, m3, m4, m5, m6, m7, m8, m9⟩ :=
    forall_pc (cnt_move s.pc i N PC.storeRelease PC.openGate hi hpc)
  simp only [reduceCtorEq, if_true, if_false] at m0 m1 m2 m3 m4 m5 m6 m7 m8 m9
  refine ⟨hmax, ?_⟩
  simp only [Arriving, Leaving, goto, hmax] at hph ⊢
  rcases hph with hA | hB
  · exfalso; omega
  · left
    cases hr : s.ready <;>
      simp only [hr, reduceCtorEq, false_implies, true_implies, Bool.false_eq_true, Bool.true_eq_false, imp_true_iff, imp_false, true_and, and_true] at hB ⊢ <;> omega

set_option maxHeartbeats 1000000 in
theorem counted_step_openGate {N : Nat} {s : State} {i : Nat} (_ : N < 2147483648)
    (h : Counted N s) (hi : i < N) (hpc : s.pc i = PC.openGate) : Counted N (step s i) := by
  obtain ⟨hmax, hph⟩ := h
  have tot := cnt_total s.pc N
  have pos := cnt_pos s.pc (s.pc i) N i hi rfl
  rw [hpc] at pos
  simp only [step, hpc]
  obtain ⟨m0, m1, m2, m3, m4, m5, m6, m7, m8, m9⟩ :=
    forall_pc (cnt_move s.pc i N PC.openGate PC.spinRelease hi hpc)
  simp only [reduceCtorEq, if_true, if_false] at m0 m1 m2 m3 m4 m5 m6 m7 m8 m9
  refine ⟨hmax, ?_⟩
  simp only [Arriving, Leaving, goto, hmax] at hph ⊢
  rcases hph with hA | hB
  · left
    cases hr : s.ready <;>
      simp only [hr, reduceCtorEq, false_implies, true_implies, Bool.false_eq_true, Bool.true_eq_false, imp_true_iff, imp_false, true_and, and_true] at hA ⊢ <;> omega
  · exfalso; omega

set_option maxHeartbeats 1000000 in
theorem counted_step_spinRelease {N : Nat} {s : State} {i : Nat} (_ : N < 2147483648)
    (h : Counted N s) (hi : i < N) (hpc : s.pc i = PC.spinRelease) : Counted N (step s i) := by
  obtain ⟨hmax, hph⟩ := h
  have tot := cnt_total s.pc N
  have pos := cnt_pos s.pc (s.pc i) N i hi rfl
  rw [hpc] at pos
  simp only [step, hpc]
  by_cases hc : s.counterValueRelease > 0
  · rw [if_pos hc]
    exact ⟨hmax, hph⟩
  · rw [if_neg hc]
    obtain ⟨m0, m1, m2, m3, m4, m5, m6, m7, m8, m9⟩ :=
      forall_pc (cnt_move s.pc i N PC.spinRelease PC.idle hi hpc)
    simp only [reduceCtorEq, if_true, if_false] at m0 m1 m2 m3 m4 m5 m6 m7 m8 m9
    refine ⟨hmax, ?_⟩
    simp only [Arriving, Leaving, goto, hmax] at hph ⊢
    rcases hph with hA | hB
    · left
      cases hr : s.ready <;>
        simp only [hr, reduceCtorEq, false_implies, true_implies, Bool.false_eq_true, Bool.true_eq_false, imp_true_iff, imp_false, true_and, and_true] at hA ⊢ <;> omega
    · exfalso; omega

/-- Every step of one of the `N` threads keeps the counters, the gate and the places fitted
together. -/
theorem counted_step {N : Nat} {s : State} {i : Nat} (hN : N < 2147483648)
    (h : Counted N s) (hi : i < N) : Counted N (step s i) := by
  cases hpc : s.pc i with
  | idle => exact counted_step_idle hN h hi hpc
  | spinReady => exact counted_step_spinReady hN h hi hpc
  | fetchSub => exact counted_step_fetchSub hN h hi hpc
  | closeGate => exact counted_step_closeGate hN h hi hpc
  | spinCount => exact counted_step_spinCount hN h hi hpc
  | fetchAdd => exact counted_step_fetchAdd hN h hi hpc
  | storeCount => exact counted_step_storeCount hN h hi hpc
  | storeRelease => exact counted_step_storeRelease hN h hi hpc
  | openGate => exact counted_step_openGate hN h hi hpc
  | spinRelease => exact counted_step_spinRelease hN h hi hpc
end Barrier

/-! ## All threads stay in the same round -/

namespace Barrier

theorem cnt_const (X Y : PC) (T : Nat) :
    cnt (fun _ => X) Y T = if X = Y then T else 0 := by
  induction T with
  | zero => simp [cnt]
  | succ T ih =>
    simp only [cnt, ih]
    by_cases h : X = Y <;> simp [h]

theorem counted_init (N : Nat) (hN : 1 ≤ N) : Counted N (busywaiting_barrier N) := by
  refine ⟨rfl, Or.inl ?_⟩
  simp only [Arriving, busywaiting_barrier, cnt_const, reduceCtorEq, if_false]
  simp
  omega

theorem synced_init (N : Nat) : Synced N (busywaiting_barrier N) := by
  intro i j _ _
  simp [passed, busywaiting_barrier]

theorem synced_of_shift {N : Nat} {s t : State} (c : Nat)
    (h : ∀ j, j < N → passed t j = passed s j + c) (hs : Synced N s) : Synced N t := by
  intro a b ha hb
  rw [h a ha, h b hb, hs a b ha hb]

/-- A move between two places before the clearing of `counterValueRelease` changes nothing in
the rounds the threads have got through. -/
theorem passed_goto_plain (s t : State) (i : Nat) (Y : PC)
    (hX : s.pc i ≠ PC.openGate ∧ s.pc i ≠ PC.spinRelease)
    (hY : Y ≠ PC.openGate ∧ Y ≠ PC.spinRelease)
    (hpc : t.pc = setAt s.pc i Y) (hrel : t.counterValueRelease = s.counterValueRelease)
    (hdone : t.done = s.done) (j : Nat) : passed t j = passed s j := by
  unfold passed
  rw [hpc, hrel, hdone]
  by_cases hj : j = i
  · subst hj
    simp [setAt, hX.1, hX.2, hY.1, hY.2]
  · simp [setAt, hj]

theorem synced_plain {N : Nat} {s : State} (t : State) (i : Nat) (Y : PC)
    (hX : s.pc i ≠ PC.openGate ∧ s.pc i ≠ PC.spinRelease)
    (hY : Y ≠ PC.openGate ∧ Y ≠ PC.spinRelease)
    (hpc : t.pc = setAt s.pc i Y) (hrel : t.counterValueRelease = s.counterValueRelease)
    (hdone : t.done = s.done) (hs : Synced N s) : Synced N t :=
  synced_of_shift 0 (fun j _ => passed_goto_plain s t i Y hX hY hpc hrel hdone j) hs

end Barrier

namespace Barrier

/-- Every step of one of the `N` threads keeps the threads in the same round. -/
theorem synced_step {N : Nat} {s : State} {i : Nat} (hN : N < 2147483648)
    (hc : Counted N s) (hs : Synced N s) (hi : i < N) : Synced N (step s i) := by
  have tot := cnt_total s.pc N
  have pos := cnt_pos s.pc (s.pc i) N i hi rfl
  obtain ⟨hmax, hph⟩ := hc
  simp only [Arriving, Leaving] at hph
  cases hpc : s.pc i with
  | idle =>
    simp only [step, hpc]
    exact synced_plain _ i _ (by simp [hpc]) (by simp) rfl rfl rfl hs
  | spinReady =>
    simp only [step, hpc]
    by_cases hr : s.ready = true
    · rw [if_pos hr]
      exact synced_plain _ i _ (by simp [hpc]) (by simp) rfl rfl rfl hs
    · rw [if_neg hr]
      exact hs
  | fetchSub =>
    simp only [step, hpc]
    by_cases hc : s.counterValue = 1
    · rw [if_pos hc]
      exact synced_plain _ i _ (by simp [hpc]) (by simp) rfl rfl rfl hs
    · rw [if_neg hc]
      exact synced_plain _ i _ (by simp [hpc]) (by simp) rfl rfl rfl hs
  | closeGate =>
    simp only [step, hpc]
    exact synced_plain _ i _ (by simp [hpc]) (by simp) rfl rfl rfl hs
  | spinCount =>
    simp only [step, hpc]
    by_cases hc : s.counterValue > 0
    · rw [if_pos hc]
      exact hs
    · rw [if_neg hc]
      exact synced_plain _ i _ (by simp [hpc]) (by simp) rfl rfl rfl hs
  | storeCount =>
    simp only [step, hpc]
    exact synced_plain _ i _ (by simp [hpc]) (by simp) rfl rfl rfl hs
  | fetchAdd =>
    rw [hpc] at pos
    have h8 : cnt s.pc PC.openGate N = 0 := by omega
    have h9 : s.counterValueRelease = 0 → cnt s.pc PC.spinRelease N = 0 := by omega
    have hb : 0 ≤ s.counterValueRelease ∧ s.counterValueRelease + 1 < 2147483648 := by
      rcases hph with hA | hB <;> omega
    have hw := wrap32_eq (s.counterValueRelease + 1) (by omega) (by omega)
    have key : ∀ (Y : PC), Y ≠ PC.openGate →
        Synced N (goto { s with counterValueRelease := wrap32 (s.counterValueRelease + 1) } i Y) := by
      intro Y hY
      refine synced_of_shift 0 (fun j hj => ?_) hs
      have a8 := ne_of_cnt_zero s.pc PC.openGate N j hj h8
      have a9 : s.counterValueRelease = 0 → s.pc j ≠ PC.spinRelease :=
        fun e => ne_of_cnt_zero s.pc PC.spinRelease N j hj (h9 e)
      have hne : s.counterValueRelease + 1 ≠ 0 := by omega
      simp only [passed, goto, hw, hne, and_false, or_false, Nat.add_zero]
      by_cases hj : j = i
      · subst hj
        simp only [setAt_same, hY, if_false, a8, false_or]
        by_cases e : s.counterValueRelease = 0
        · simp [a9 e]
        · simp [e]
      · simp only [setAt_other _ _ _ _ hj, a8, if_false, false_or]
        by_cases e : s.counterValueRelease = 0
        · simp [a9 e]
        · simp [e]
    simp only [step, hpc]
    by_cases hc : s.counterValueRelease = wrap32 (s.counterValueMax - 1)
    · rw [if_pos hc]
      exact key _ (by simp)
    · rw [if_neg hc]
      exact key _ (by simp)
  | storeRelease =>
    rw [hpc] at pos
    obtain ⟨m0, m1, m2, m3, m4, m5, m6, m7, m8, m9⟩ :=
      forall_pc (cnt_move s.pc i N PC.storeRelease PC.openGate hi hpc)
    simp only [reduceCtorEq, if_true, if_false] at m0 m1 m2 m3 m4 m5 m6 m7 m8 m9
    have hB : 0 < s.counterValueRelease ∧ cnt s.pc PC.openGate N = 0
        ∧ cnt s.pc PC.spinRelease N + 1 = N := by
      rcases hph with hA | hB <;> omega
    clear hph
    have h8 : cnt s.pc PC.openGate N = 0 := hB.2.1
    have hpos : s.counterValueRelease ≠ 0 := by omega
    have zs : cnt (setAt s.pc i PC.openGate) PC.idle N = 0
        ∧ cnt (setAt s.pc i PC.openGate) PC.spinReady N = 0
        ∧ cnt (setAt s.pc i PC.openGate) PC.fetchSub N = 0
        ∧ cnt (setAt s.pc i PC.openGate) PC.closeGate N = 0
        ∧ cnt (setAt s.pc i PC.openGate) PC.spinCount N = 0
        ∧ cnt (setAt s.pc i PC.openGate) PC.fetchAdd N = 0
        ∧ cnt (setAt s.pc i PC.openGate) PC.storeCount N = 0
        ∧ cnt (setAt s.pc i PC.openGate) PC.storeRelease N = 0 := by omega
    obtain ⟨z0, z1, z2, z3, z4, z5, z6, z7⟩ := zs
    have hin : ∀ j, j < N → setAt s.pc i PC.openGate j = PC.openGate
        ∨ setAt s.pc i PC.openGate j = PC.spinRelease := by
      intro j hj
      have n0 := ne_of_cnt_zero _ PC.idle N j hj z0
      have n1 := ne_of_cnt_zero _ PC.spinReady N j hj z1
      have n2 := ne_of_cnt_zero _ PC.fetchSub N j hj z2
      have n3 := ne_of_cnt_zero _ PC.closeGate N j hj z3
      have n4 := ne_of_cnt_zero _ PC.spinCount N j hj z4
      have n5 := ne_of_cnt_zero _ PC.fetchAdd N j hj z5
      have n6 := ne_of_cnt_zero _ PC.storeCount N j hj z6
      have n7 := ne_of_cnt_zero _ PC.storeRelease N j hj z7
      generalize setAt s.pc i PC.openGate j = p at n0 n1 n2 n3 n4 n5 n6 n7
      cases p <;> first
        | exact Or.inl rfl | exact Or.inr rfl | exact absurd rfl n0 | exact absurd rfl n1
        | exact absurd rfl n2 | exact absurd rfl n3 | exact absurd rfl n4 | exact absurd rfl n5
        | exact absurd rfl n6 | exact absurd rfl n7
    simp only [step, hpc]
    refine synced_of_shift 1 (fun j hj => ?_) hs
    have a8 := ne_of_cnt_zero s.pc PC.openGate N j hj h8
    have hj2 := hin j hj
    simp only [passed, goto, a8, hpos, and_false, or_false, if_false, and_true, Nat.add_zero]
    rw [if_pos hj2]
  | openGate =>
    rw [hpc] at pos
    have hz : s.counterValueRelease = 0 := by
      rcases hph with hA | hB
      · exact hA.1
      · omega
    simp only [step, hpc]
    refine synced_of_shift 0 (fun j _ => ?_) hs
    simp only [passed, goto, hz, and_true, Nat.add_zero]
    by_cases hj : j = i
    · subst hj
      simp [setAt, hpc]
    · simp [setAt, hj]
  | spinRelease =>
    rw [hpc] at pos
    simp only [step, hpc]
    by_cases hc : s.counterValueRelease > 0
    · rw [if_pos hc]
      exact hs
    · rw [if_neg hc]
      have hz : s.counterValueRelease = 0 := by
        rcases hph with hA | hB
        · exact hA.1
        · omega
      refine synced_of_shift 0 (fun j _ => ?_) hs
      simp only [passed, goto, hz, and_true, Nat.add_zero]
      by_cases hj : j = i
      · subst hj
        simp [setAt, hpc]
      · simp [setAt, hj]

end Barrier

/-! ## Reachable states -/

namespace Barrier

theorem reachable_inv {N : Nat} (hN1 : 1 ≤ N) (hN : N < 2147483648) {s : State}
    (h : Reachable N (N : Int) s) : Inv N s := by
  induction h with
  | init => exact ⟨counted_init N hN1, synced_init N⟩
  | step _ hi ih => exact ⟨counted_step hN ih.1 hi, synced_step hN ih.1 ih.2 hi⟩

theorem reachable_run_from (T : Nat) (N : Int) (sched : List Nat) :
    ∀ s, Reachable T N s → (∀ i, i ∈ sched → i < T) → Reachable T N (run s sched) := by
  induction sched with
  | nil => intro s h _; exact h
  | cons a l ih =>
    intro s h hlt
    exact ih (step s a) (Reachable.step h (hlt a (List.mem_cons_self a l)))
      (fun i hi => hlt i (List.mem_cons_of_mem a hi))

theorem reachable_run (T : Nat) (N : Int) (sched : List Nat) (h : ∀ i, i ∈ sched → i < T) :
    Reachable T N (run (busywaiting_barrier N) sched) :=
  reachable_run_from T N sched _ Reachable.init h

theorem cnt_zero_of_forall_ne (pc : Nat → PC) (X : PC) (T : Nat)
    (h : ∀ i, i < T → pc i ≠ X) : cnt pc X T = 0 := by
  by_contra hne
  obtain ⟨i, hi, e⟩ := exists_of_cnt_pos pc X T (by omega)
  exact h i hi e

theorem done_le_passed (s : State) (i : Nat) : s.done i ≤ passed s i := by
  unfold passed
  omega

theorem passed_le_decrements (s : State) (i : Nat) : passed s i ≤ decrements s i := by
  unfold passed decrements
  cases h : s.pc i <;> simp
  split <;> omega

/-- The count `decrements` goes up by one exactly when the thread performs the `fetch_sub`. -/
theorem decrements_step (s : State) (i : Nat) :
    decrements (step s i) i = decrements s i + (if s.pc i = PC.fetchSub then 1 else 0) := by
  unfold decrements step
  cases hpc : s.pc i <;> simp only [hpc]
  · simp [goto, setAt, hpc]
  · split <;> simp [goto, setAt, hpc]
  · split <;> simp [goto, setAt, hpc]
  · simp [goto, setAt, hpc]
  · split <;> simp [goto, setAt, hpc]
  · split <;> simp [goto, setAt, hpc]
  · simp [goto, setAt, hpc]
  · simp [goto, setAt, hpc]
  · simp [goto, setAt, hpc]
  · split <;> simp [goto, setAt, hpc]

/-- A step of thread `i` leaves the place and the completed calls of every other thread as
they are. -/
theorem step_other (s : State) (i j : Nat) (h : j ≠ i) :
    (step s i).pc j = s.pc j ∧ (step s i).done j = s.done j := by
  unfold step
  cases hpc : s.pc i <;> simp only [] <;> (try split) <;> simp [goto, setAt, h]

/-- A step of thread `i` leaves the decrements of every other thread as they are. -/
theorem decrements_step_other (s : State) (i j : Nat) (h : j ≠ i) :
    decrements (step s i) j = decrements s j := by
  unfold decrements
  rw [(step_other s i j h).1, (step_other s i j h).2]

/-- A thread that is not at a spin loop whose condition holds moves when it steps. -/
theorem step_moves (s : State) (i : Nat) (h : blocked s i = false) :
    (step s i).pc i ≠ s.pc i := by
  unfold blocked at h
  unfold step
  cases hpc : s.pc i <;> simp only [hpc] at h ⊢
  · simp [goto, setAt, hpc]
  · simp only [Bool.not_eq_false'] at h
    simp [h, goto, setAt, hpc]
  · split <;> simp [goto, setAt, hpc]
  · simp [goto, setAt, hpc]
  · simp only [decide_eq_false_iff_not] at h
    simp [h, goto, setAt, hpc]
  · split <;> simp [goto, setAt, hpc]
  · simp [goto, setAt, hpc]
  · simp [goto, setAt, hpc]
  · simp [goto, setAt, hpc]
  · simp only [decide_eq_false_iff_not] at h
    simp [h, goto, setAt, hpc]

/-- A thread at a spin loop whose condition holds leaves the state as it is. -/
theorem step_blocked (s : State) (i : Nat) (h : blocked s i = true) : step s i = s := by
  unfold blocked at h
  unfold step
  cases hpc : s.pc i <;> simp only [hpc] at h ⊢ <;> simp_all

end Barrier

/-! ## Exactly `N` threads: rendezvous, reset, progress -/

namespace Barrier

/-- C1 (full rendezvous): with exactly `N >= 1` threads on a barrier constructed with `N`
(`N` an `int`), in no reachable state has a thread `t` returned from its `r`-th call of
`wait()` while another thread `u` has not yet performed the `fetch_sub` of its own `r`-th
call. -/
theorem full_rendezvous (N : Nat) (hN1 : 1 ≤ N) (hN : N < 2147483648) (s : State)
    (hs : Reachable N (N : Int) s) (t u : Nat) (ht : t < N) (hu : u < N)
    (r : Nat) (hret : r ≤ s.done t) : r ≤ decrements s u := by
  have hinv := reachable_inv hN1 hN hs
  have h1 := done_le_passed s t
  have h2 := passed_le_decrements s u
  have h3 := hinv.2 t u ht hu
  omega

theorem full_rendezvous_witness :
    1 ≤ decrements (run (busywaiting_barrier 2) [0, 0, 0, 1, 1, 1, 1, 0, 0, 1, 1, 1, 1, 0]) 1 :=
  full_rendezvous 2 (by decide) (by decide) _
    (reachable_run 2 2 [0, 0, 0, 1, 1, 1, 1, 0, 0, 1, 1, 1, 1, 0] (by decide)) 0 1
    (by decide) (by decide) 1 (by decide)

/-- C2 (no overlap, full reset): with exactly `N >= 1` threads, in every reachable state in
which no thread is inside `wait()`, the shared state is `counterValue = N`,
`counterValueRelease = 0`, `ready = true`, all threads have returned from the same number of
calls, and none has decremented `counterValue` for the next round. -/
theorem all_outside_reset (N : Nat) (hN1 : 1 ≤ N) (hN : N < 2147483648) (s : State)
    (hs : Reachable N (N : Int) s) (hout : ∀ i, i < N → s.pc i = PC.idle) :
    s.counterValue = N ∧ s.counterValueRelease = 0 ∧ s.ready = true
      ∧ (∀ t u, t < N → u < N → s.done t = s.done u)
      ∧ (∀ t, t < N → decrements s t = s.done t) := by
  obtain ⟨⟨_, hph⟩, hsync⟩ := reachable_inv hN1 hN hs
  have tot := cnt_total s.pc N
  have z1 := cnt_zero_of_forall_ne s.pc PC.spinReady N (fun i hi => by simp [hout i hi])
  have z2 := cnt_zero_of_forall_ne s.pc PC.fetchSub N (fun i hi => by simp [hout i hi])
  have z3 := cnt_zero_of_forall_ne s.pc PC.closeGate N (fun i hi => by simp [hout i hi])
  have z4 := cnt_zero_of_forall_ne s.pc PC.spinCount N (fun i hi => by simp [hout i hi])
  have z5 := cnt_zero_of_forall_ne s.pc PC.fetchAdd N (fun i hi => by simp [hout i hi])
  have z6 := cnt_zero_of_forall_ne s.pc PC.storeCount N (fun i hi => by simp [hout i hi])
  have z7 := cnt_zero_of_forall_ne s.pc PC.storeRelease N (fun i hi => by simp [hout i hi])
  have z8 := cnt_zero_of_forall_ne s.pc PC.openGate N (fun i hi => by simp [hout i hi])
  have z9 := cnt_zero_of_forall_ne s.pc PC.spinRelease N (fun i hi => by simp [hout i hi])
  simp only [Arriving, Leaving] at hph
  have hcv : s.counterValue = N ∧ s.counterValueRelease = 0 := by
    rcases hph with hA | hB <;> omega
  refine ⟨hcv.1, hcv.2, ?_, ?_, ?_⟩
  · cases hr : s.ready
    · exfalso
      rcases hph with hA | hB
      · have := hA.2.2.2.2.2.2.2.2.2.2.1 hr
        omega
      · omega
    · rfl
  · intro t u ht hu
    have := hsync t u ht hu
    simpa [passed, hout t ht, hout u hu] using this
  · intro t ht
    simp [decrements, hout t ht]

theorem all_outside_reset_witness :
    (∀ i, i < 2 → (run (busywaiting_barrier 2) (oneRound 1)).pc i = PC.idle)
      ∧ (∀ i, i < 2 → (run (busywaiting_barrier 2) (oneRound 1)).done i = 1)
      ∧ (run (busywaiting_barrier 2) (oneRound 1)).counterValue = ((2 : Nat) : Int)
      ∧ (run (busywaiting_barrier 2) (oneRound 1)).counterValueRelease = 0
      ∧ (run (busywaiting_barrier 2) (oneRound 1)).ready = true
      ∧ (∀ t u, t < 2 → u < 2 → (run (busywaiting_barrier 2) (oneRound 1)).done t
            = (run (busywaiting_barrier 2) (oneRound 1)).done u)
      ∧ (∀ t, t < 2 → decrements (run (busywaiting_barrier 2) (oneRound 1)) t
            = (run (busywaiting_barrier 2) (oneRound 1)).done t) :=
  ⟨by decide, by decide,
    all_outside_reset 2 (by decide) (by decide) _
      (reachable_run 2 2 (oneRound 1) (by decide)) (by decide)⟩

/-- C3 (reusable without deadlock): with exactly `N >= 1` threads, in every reachable state
some thread can take a step that is not a failed poll of one of the three spin loops: it is
not blocked, and its step moves it to another place. -/
theorem no_deadlock (N : Nat) (hN1 : 1 ≤ N) (hN : N < 2147483648) (s : State)
    (hs : Reachable N (N : Int) s) :
    ∃ i, i < N ∧ blocked s i = false ∧ (step s i).pc i ≠ s.pc i := by
  obtain ⟨⟨_, hph⟩, _⟩ := reachable_inv hN1 hN hs
  have tot := cnt_total s.pc N
  simp only [Arriving, Leaving] at hph
  have key : 1 ≤ cnt s.pc PC.idle N ∨ 1 ≤ cnt s.pc PC.fetchSub N ∨ 1 ≤ cnt s.pc PC.closeGate N
      ∨ 1 ≤ cnt s.pc PC.fetchAdd N ∨ 1 ≤ cnt s.pc PC.storeCount N
      ∨ 1 ≤ cnt s.pc PC.storeRelease N ∨ 1 ≤ cnt s.pc PC.openGate N
      ∨ (1 ≤ cnt s.pc PC.spinReady N ∧ s.ready = true)
      ∨ (1 ≤ cnt s.pc PC.spinCount N ∧ ¬ s.counterValue > 0)
      ∨ (1 ≤ cnt s.pc PC.spinRelease N ∧ ¬ s.counterValueRelease > 0) := by
    rcases hph with hA | hB
    · cases hr : s.ready <;>
        simp only [hr, reduceCtorEq, false_implies, true_implies, Bool.false_eq_true,
          Bool.true_eq_false, imp_true_iff, imp_false, true_and, and_true, and_false,
          or_false] at hA ⊢ <;> omega
    · cases hr : s.ready <;>
        simp only [hr, reduceCtorEq, false_implies, true_implies, Bool.false_eq_true,
          Bool.true_eq_false, imp_true_iff, imp_false, true_and, and_true, and_false,
          or_false] at hB ⊢ <;> omega
  have fin : ∀ i, i < N → blocked s i = false →
      ∃ i, i < N ∧ blocked s i = false ∧ (step s i).pc i ≠ s.pc i :=
    fun i hi hb => ⟨i, hi, hb, step_moves s i hb⟩
  rcases key with h | h | h | h | h | h | h | ⟨h, hr⟩ | ⟨h, hc⟩ | ⟨h, hc⟩
  all_goals obtain ⟨i, hi, hpc⟩ := exists_of_cnt_pos s.pc _ N h
  all_goals refine fin i hi ?_
  all_goals first
    | (simp [blocked, hpc]; done)
    | simp [blocked, hpc, hr]
    | simp [blocked, hpc, hc]

theorem no_deadlock_witness :
    ∃ i, i < 2 ∧ blocked (run (busywaiting_barrier 2) [0, 0, 0, 0, 1, 1, 1]) i = false
      ∧ (step (run (busywaiting_barrier 2) [0, 0, 0, 0, 1, 1, 1]) i).pc i
          ≠ (run (busywaiting_barrier 2) [0, 0, 0, 0, 1, 1, 1]).pc i :=
  no_deadlock 2 (by decide) (by decide) _
    (reachable_run 2 2 [0, 0, 0, 0, 1, 1, 1] (by decide))

/-- C7 (lock-step iterations): with exactly `N >= 1` threads looping
`compute_step(); b.wait();`, in every reachable state the numbers of completed calls of
`wait()` of any two threads differ by at most 1. -/
theorem lock_step (N : Nat) (hN1 : 1 ≤ N) (hN : N < 2147483648) (s : State)
    (hs : Reachable N (N : Int) s) (t u : Nat) (ht : t < N) (hu : u < N) :
    s.done t ≤ s.done u + 1 ∧ s.done u ≤ s.done t + 1 := by
  have h := (reachable_inv hN1 hN hs).2 t u ht hu
  unfold passed at h
  constructor <;> (split at h <;> split at h <;> omega)

theorem lock_step_witness :
    (run (busywaiting_barrier 2) [0, 0, 0, 1, 1, 1, 1, 0, 0, 1, 1, 1, 1, 0]).done 0
        ≤ (run (busywaiting_barrier 2) [0, 0, 0, 1, 1, 1, 1, 0, 0, 1, 1, 1, 1, 0]).done 1 + 1
      ∧ (run (busywaiting_barrier 2) [0, 0, 0, 1, 1, 1, 1, 0, 0, 1, 1, 1, 1, 0]).done 1
        ≤ (run (busywaiting_barrier 2) [0, 0, 0, 1, 1, 1, 1, 0, 0, 1, 1, 1, 1, 0]).done 0 + 1 :=
  lock_step 2 (by decide) (by decide) _
    (reachable_run 2 2 [0, 0, 0, 1, 1, 1, 1, 0, 0, 1, 1, 1, 1, 0] (by decide)) 0 1
    (by decide) (by decide)

end Barrier

/-! ## Exactly `N` threads: what a returning thread has witnessed -/

namespace Barrier

/-- C8 as stated fails for `N = 2`: after this interleaving thread 0 has performed the
`fetch_sub` of its second call (`counterValue` is 1) while thread 1 is still inside its first
call, at the final spin. -/
theorem decrement_while_previous_round_inside :
    Reachable 2 2 (run (busywaiting_barrier 2) [0, 0, 0, 1, 1, 1, 1, 0, 0, 1, 1, 1, 1, 1, 0, 0, 0, 0])
      ∧ decrements (run (busywaiting_barrier 2)
          [0, 0, 0, 1, 1, 1, 1, 0, 0, 1, 1, 1, 1, 1, 0, 0, 0, 0]) 0 = 2
      ∧ (run (busywaiting_barrier 2)
          [0, 0, 0, 1, 1, 1, 1, 0, 0, 1, 1, 1, 1, 1, 0, 0, 0, 0]).counterValue = 1
      ∧ (run (busywaiting_barrier 2)
          [0, 0, 0, 1, 1, 1, 1, 0, 0, 1, 1, 1, 1, 1, 0, 0, 0, 0]).done 1 = 0
      ∧ (run (busywaiting_barrier 2)
          [0, 0, 0, 1, 1, 1, 1, 0, 0, 1, 1, 1, 1, 1, 0, 0, 0, 0]).pc 1 = PC.spinRelease :=
  ⟨reachable_run 2 2 _ (by decide), by decide, by decide, by decide, by decide⟩

/-- C8 amended: with exactly `N >= 1` threads, when a thread `t` has performed the `fetch_sub`
of a round after the one thread `u` has not yet returned from, the reset of that earlier
round is complete (no thread is at one of the three reset stores, `counterValueRelease` is 0
and `ready` is true) and `u` stands at the final spin, which its next poll leaves. -/
theorem decrement_after_reset (N : Nat) (hN1 : 1 ≤ N) (hN : N < 2147483648) (s : State)
    (hs : Reachable N (N : Int) s) (t u : Nat) (ht : t < N) (hu : u < N)
    (hd : s.done u + 2 ≤ decrements s t) :
    s.pc u = PC.spinRelease ∧ s.counterValueRelease = 0 ∧ s.ready = true
      ∧ ∀ v, v < N →
          s.pc v ≠ PC.storeCount ∧ s.pc v ≠ PC.storeRelease ∧ s.pc v ≠ PC.openGate := by
  obtain ⟨⟨_, hph⟩, hsync⟩ := reachable_inv hN1 hN hs
  have tot := cnt_total s.pc N
  have hst := hsync t u ht hu
  have pt := cnt_pos s.pc (s.pc t) N t ht rfl
  have pu := cnt_pos s.pc (s.pc u) N u hu rfl
  have hdt : decrements s t ≤ s.done t + 1 := by
    unfold decrements
    split <;> omega
  simp only [Arriving, Leaving] at hph
  rcases hph with hA | hB
  · have hz : s.counterValueRelease = 0 := hA.1
    simp only [passed, hz, and_true] at hst
    have hut : (s.pc u = PC.openGate ∨ s.pc u = PC.spinRelease)
        ∧ ¬ (s.pc t = PC.openGate ∨ s.pc t = PC.spinRelease) := by
      split at hst <;> split at hst <;> first | omega | exact ⟨by assumption, by assumption⟩
    have hdec : decrements s t = s.done t + 1 := by
      split at hst <;> split at hst <;> omega
    have hmid : 1 ≤ cnt s.pc PC.closeGate N + cnt s.pc PC.spinCount N
        + cnt s.pc PC.fetchAdd N := by
      unfold decrements at hdec
      cases hpt : s.pc t <;> rw [hpt] at pt <;> simp [hpt] at hdec hut <;> omega
    have h8 : cnt s.pc PC.openGate N = 0 := by omega
    have hu9 : s.pc u = PC.spinRelease := by
      rcases hut.1 with h | h
      · exact absurd h (ne_of_cnt_zero s.pc PC.openGate N u hu h8)
      · exact h
    refine ⟨hu9, hz, ?_, ?_⟩
    · rw [hu9] at pu
      cases hr : s.ready
      · simp only [hr, true_implies] at hA
        omega
      · rfl
    · intro v hv
      exact ⟨ne_of_cnt_zero s.pc _ N v hv hA.2.1, ne_of_cnt_zero s.pc _ N v hv hA.2.2.1,
        ne_of_cnt_zero s.pc _ N v hv h8⟩
  · exfalso
    have hne : s.counterValueRelease ≠ 0 := by omega
    have a := ne_of_cnt_zero s.pc PC.openGate N t ht hB.2.2.2.2.1
    have b := ne_of_cnt_zero s.pc PC.openGate N u hu hB.2.2.2.2.1
    simp only [passed, a, b, hne, and_false, or_false, if_false] at hst
    omega

theorem decrement_after_reset_witness :
    (run (busywaiting_barrier 2)
        [0, 0, 0, 1, 1, 1, 1, 0, 0, 1, 1, 1, 1, 1, 0, 0, 0, 0]).pc 1 = PC.spinRelease
      ∧ (run (busywaiting_barrier 2)
        [0, 0, 0, 1, 1, 1, 1, 0, 0, 1, 1, 1, 1, 1, 0, 0, 0, 0]).counterValueRelease = 0
      ∧ (run (busywaiting_barrier 2)
        [0, 0, 0, 1, 1, 1, 1, 0, 0, 1, 1, 1, 1, 1, 0, 0, 0, 0]).ready = true
      ∧ ∀ v, v < 2 →
          (run (busywaiting_barrier 2)
            [0, 0, 0, 1, 1, 1, 1, 0, 0, 1, 1, 1, 1, 1, 0, 0, 0, 0]).pc v ≠ PC.storeCount
          ∧ (run (busywaiting_barrier 2)
            [0, 0, 0, 1, 1, 1, 1, 0, 0, 1, 1, 1, 1, 1, 0, 0, 0, 0]).pc v ≠ PC.storeRelease
          ∧ (run (busywaiting_barrier 2)
            [0, 0, 0, 1, 1, 1, 1, 0, 0, 1, 1, 1, 1, 1, 0, 0, 0, 0]).pc v ≠ PC.openGate :=
  decrement_after_reset 2 (by decide) (by decide) _
    (reachable_run 2 2 [0, 0, 0, 1, 1, 1, 1, 0, 0, 1, 1, 1, 1, 1, 0, 0, 0, 0] (by decide)) 0 1
    (by decide) (by decide) (by decide)

/-- C9 as stated fails for `N = 2`: after this interleaving thread 0 has returned from its
first call of `wait()` while thread 1, the last departer of that round, has not yet stored
`ready = true`; `ready` is false. -/
theorem return_before_gate_reopened :
    Reachable 2 2 (run (busywaiting_barrier 2) [0, 0, 0, 1, 1, 1, 1, 0, 0, 1, 1, 1, 1, 0])
      ∧ (run (busywaiting_barrier 2) [0, 0, 0, 1, 1, 1, 1, 0, 0, 1, 1, 1, 1, 0]).pc 0 = PC.idle
      ∧ (run (busywaiting_barrier 2) [0, 0, 0, 1, 1, 1, 1, 0, 0, 1, 1, 1, 1, 0]).done 0 = 1
      ∧ (run (busywaiting_barrier 2) [0, 0, 0, 1, 1, 1, 1, 0, 0, 1, 1, 1, 1, 0]).pc 1
          = PC.openGate
      ∧ (run (busywaiting_barrier 2) [0, 0, 0, 1, 1, 1, 1, 0, 0, 1, 1, 1, 1, 0]).done 1 = 0
      ∧ (run (busywaiting_barrier 2) [0, 0, 0, 1, 1, 1, 1, 0, 0, 1, 1, 1, 1, 0]).ready = false :=
  ⟨reachable_run 2 2 _ (by decide), by decide, by decide, by decide, by decide, by decide⟩

/-- C9 amended: with exactly `N >= 1` threads, when a thread `t` has returned from a call of
`wait()` that thread `u` has not yet returned from, or is able to leave the final spin of
such a call, the stores `counterValue = N` and `counterValueRelease = 0` of that round are
complete: `counterValueRelease` is 0, no thread is at one of these two stores, and `u` is
past them (at the store `ready = true` or at the final spin). -/
theorem return_after_counters_reset (N : Nat) (hN1 : 1 ≤ N) (hN : N < 2147483648) (s : State)
    (hs : Reachable N (N : Int) s) (t u : Nat) (ht : t < N) (hu : u < N)
    (hret : s.done u < s.done t
      ∨ (s.pc t = PC.spinRelease ∧ s.counterValueRelease = 0 ∧ s.done u ≤ s.done t)) :
    (s.pc u = PC.openGate ∨ s.pc u = PC.spinRelease) ∧ s.counterValueRelease = 0
      ∧ ∀ v, v < N → s.pc v ≠ PC.storeCount ∧ s.pc v ≠ PC.storeRelease := by
  obtain ⟨⟨_, hph⟩, hsync⟩ := reachable_inv hN1 hN hs
  have hst := hsync t u ht hu
  simp only [Arriving, Leaving] at hph
  rcases hph with hA | hB
  · have hz : s.counterValueRelease = 0 := hA.1
    simp only [passed, hz, and_true] at hst
    refine ⟨?_, hz, fun v hv =>
      ⟨ne_of_cnt_zero s.pc _ N v hv hA.2.1, ne_of_cnt_zero s.pc _ N v hv hA.2.2.1⟩⟩
    rcases hret with h | ⟨h, _, h'⟩
    · split at hst <;> split at hst <;> first | omega | assumption
    · simp only [h, or_true, if_true] at hst
      split at hst <;> first | omega | assumption
  · exfalso
    have hne : s.counterValueRelease ≠ 0 := by omega
    have a := ne_of_cnt_zero s.pc PC.openGate N t ht hB.2.2.2.2.1
    have b := ne_of_cnt_zero s.pc PC.openGate N u hu hB.2.2.2.2.1
    simp only [passed, a, b, hne, and_false, or_false, if_false] at hst
    omega

theorem return_after_counters_reset_witness :
    ((run (busywaiting_barrier 2) [0, 0, 0, 1, 1, 1, 1, 0, 0, 1, 1, 1, 1, 0]).pc 1 = PC.openGate
        ∨ (run (busywaiting_barrier 2) [0, 0, 0, 1, 1, 1, 1, 0, 0, 1, 1, 1, 1, 0]).pc 1
          = PC.spinRelease)
      ∧ (run (busywaiting_barrier 2)
          [0, 0, 0, 1, 1, 1, 1, 0, 0, 1, 1, 1, 1, 0]).counterValueRelease = 0
      ∧ ∀ v, v < 2 →
          (run (busywaiting_barrier 2) [0, 0, 0, 1, 1, 1, 1, 0, 0, 1, 1, 1, 1, 0]).pc v
            ≠ PC.storeCount
          ∧ (run (busywaiting_barrier 2) [0, 0, 0, 1, 1, 1, 1, 0, 0, 1, 1, 1, 1, 0]).pc v
            ≠ PC.storeRelease :=
  return_after_counters_reset 2 (by decide) (by decide) _
    (reachable_run 2 2 [0, 0, 0, 1, 1, 1, 1, 0, 0, 1, 1, 1, 1, 0] (by decide)) 0 1
    (by decide) (by decide) (Or.inl (by decide))

end Barrier

/-! ## spinlock: the test and the store are two steps -/

namespace Spinlock

/-- C4 fails on the code: threads 0 and 1 both call `lock()`, both test `locked` (false)
before either stores `locked = true`, and both return from `lock()`: two threads hold the
lock at once. -/
theorem two_holders :
    (run spinlock [0, 1, 0, 1, 0, 1]).loc 0 = Loc.holding
      ∧ (run spinlock [0, 1, 0, 1, 0, 1]).loc 1 = Loc.holding := by
  decide

end Spinlock

/-! ## One thread on a barrier constructed with 1 -/

namespace Barrier

theorem run_append (s : State) (a b : List Nat) : run s (a ++ b) = run (run s a) b := by
  simp [run, List.foldl_append]

/-- One call of `wait()` by thread 0 alone, from the state `{1, 0, true}`: the places the
thread stands at before each of its ten steps and after the last, no step being a failed
poll, and the state at the end. -/
theorem wait_once (s : State) (h1 : s.counterValue = 1) (h2 : s.counterValueRelease = 0)
    (h3 : s.ready = true) (h4 : s.counterValueMax = 1) (h5 : s.pc 0 = PC.idle) :
    (List.range 11).map (fun k => (run s (List.replicate k 0)).pc 0)
        = [PC.idle, PC.spinReady, PC.fetchSub, PC.closeGate, PC.spinCount, PC.fetchAdd,
            PC.storeCount, PC.storeRelease, PC.openGate, PC.spinRelease, PC.idle]
      ∧ (List.range 10).map (fun k => blocked (run s (List.replicate k 0)) 0)
        = List.replicate 10 false
      ∧ (run s (List.replicate 10 0)).counterValue = 1
      ∧ (run s (List.replicate 10 0)).counterValueRelease = 0
      ∧ (run s (List.replicate 10 0)).ready = true
      ∧ (run s (List.replicate 10 0)).counterValueMax = 1
      ∧ (run s (List.replicate 10 0)).pc 0 = PC.idle
      ∧ (run s (List.replicate 10 0)).done 0 = s.done 0 + 1 := by
  have w0 : wrap32 0 = 0 := by decide
  have w1 : wrap32 1 = 1 := by decide
  simp [List.range, List.range.loop, run, List.replicate, step, goto, setAt, blocked,
    h1, h2, h3, h4, h5, w0, w1]

/-- After any number of complete calls by thread 0 alone the state is `{1, 0, true}` again. -/
theorem wait_repeated (s : State) (h1 : s.counterValue = 1) (h2 : s.counterValueRelease = 0)
    (h3 : s.ready = true) (h4 : s.counterValueMax = 1) (h5 : s.pc 0 = PC.idle) (r : Nat) :
    (run s (List.replicate (10 * r) 0)).counterValue = 1
      ∧ (run s (List.replicate (10 * r) 0)).counterValueRelease = 0
      ∧ (run s (List.replicate (10 * r) 0)).ready = true
      ∧ (run s (List.replicate (10 * r) 0)).counterValueMax = 1
      ∧ (run s (List.replicate (10 * r) 0)).pc 0 = PC.idle
      ∧ (run s (List.replicate (10 * r) 0)).done 0 = s.done 0 + r := by
  induction r with
  | zero => exact ⟨h1, h2, h3, h4, h5, rfl⟩
  | succ r ih =>
    obtain ⟨a1, a2, a3, a4, a5, a6⟩ := ih
    have e : 10 * (r + 1) = 10 * r + 10 := by ring
    rw [e, List.replicate_add, run_append]
    obtain ⟨_, _, b1, b2, b3, b4, b5, b6⟩ :=
      wait_once (run s (List.replicate (10 * r) 0)) a1 a2 a3 a4 a5
    exact ⟨b1, b2, b3, b4, b5, by rw [b6, a6]; ring⟩

/-- C5 (degenerate `N = 1`): one thread on `busywaiting_barrier(1)`, started in the state
`{counterValue = 1, counterValueRelease = 0, ready = true}` outside `wait()`.  For every `r`,
after `r` complete calls the state is `{1, 0, true}` again, and the next call runs through
its ten steps without a failed poll (each of the three loop conditions is false the first
time it is tested: the thread moves on from every place at once) and ends in `{1, 0, true}`
with one more completed call. -/
theorem single_thread_wait (s : State) (h1 : s.counterValue = 1)
    (h2 : s.counterValueRelease = 0) (h3 : s.ready = true) (h4 : s.counterValueMax = 1)
    (h5 : s.pc 0 = PC.idle) (r : Nat) :
    ((run s (List.replicate (10 * r) 0)).counterValue = 1
        ∧ (run s (List.replicate (10 * r) 0)).counterValueRelease = 0
        ∧ (run s (List.replicate (10 * r) 0)).ready = true
        ∧ (run s (List.replicate (10 * r) 0)).done 0 = s.done 0 + r)
      ∧ (List.range 11).map (fun k => (run s (List.replicate (10 * r + k) 0)).pc 0)
        = [PC.idle, PC.spinReady, PC.fetchSub, PC.closeGate, PC.spinCount, PC.fetchAdd,
            PC.storeCount, PC.storeRelease, PC.openGate, PC.spinRelease, PC.idle]
      ∧ (List.range 10).map (fun k => blocked (run s (List.replicate (10 * r + k) 0)) 0)
        = List.replicate 10 false
      ∧ ((run s (List.replicate (10 * r + 10) 0)).counterValue = 1
        ∧ (run s (List.replicate (10 * r + 10) 0)).counterValueRelease = 0
        ∧ (run s (List.replicate (10 * r + 10) 0)).ready = true
        ∧ (run s (List.replicate (10 * r + 10) 0)).done 0 = s.done 0 + r + 1) := by
  obtain ⟨a1, a2, a3, a4, a5, a6⟩ := wait_repeated s h1 h2 h3 h4 h5 r
  obtain ⟨b0, bb, b1, b2, b3, _, _, b6⟩ :=
    wait_once (run s (List.replicate (10 * r) 0)) a1 a2 a3 a4 a5
  simp only [List.replicate_add, run_append]
  exact ⟨⟨a1, a2, a3, a6⟩, b0, bb, b1, b2, b3, by rw [b6, a6]⟩

theorem single_thread_wait_witness :
    ((run (busywaiting_barrier 1) (List.replicate (10 * 2) 0)).counterValue = 1
        ∧ (run (busywaiting_barrier 1) (List.replicate (10 * 2) 0)).counterValueRelease = 0
        ∧ (run (busywaiting_barrier 1) (List.replicate (10 * 2) 0)).ready = true
        ∧ (run (busywaiting_barrier 1) (List.replicate (10 * 2) 0)).done 0
            = (busywaiting_barrier 1).done 0 + 2)
      ∧ (List.range 11).map
          (fun k => (run (busywaiting_barrier 1) (List.replicate (10 * 2 + k) 0)).pc 0)
        = [PC.idle, PC.spinReady, PC.fetchSub, PC.closeGate, PC.spinCount, PC.fetchAdd,
            PC.storeCount, PC.storeRelease, PC.openGate, PC.spinRelease, PC.idle]
      ∧ (List.range 10).map
          (fun k => blocked (run (busywaiting_barrier 1) (List.replicate (10 * 2 + k) 0)) 0)
        = List.replicate 10 false
      ∧ ((run (busywaiting_barrier 1) (List.replicate (10 * 2 + 10) 0)).counterValue = 1
        ∧ (run (busywaiting_barrier 1) (List.replicate (10 * 2 + 10) 0)).counterValueRelease = 0
        ∧ (run (busywaiting_barrier 1) (List.replicate (10 * 2 + 10) 0)).ready = true
        ∧ (run (busywaiting_barrier 1) (List.replicate (10 * 2 + 10) 0)).done 0
            = (busywaiting_barrier 1).done 0 + 2 + 1) :=
  single_thread_wait (busywaiting_barrier 1) rfl rfl rfl rfl rfl 2

end Barrier

/-! ## Fewer threads than the barrier was constructed for -/

namespace Barrier

theorem short_init (N : Int) (k : Nat) : Short N k (busywaiting_barrier N) := by
  simp [Short, busywaiting_barrier, cnt_const]

theorem short_step {N : Int} {k : Nat} {s : State} {i : Nat} (hk : (k : Int) < N)
    (hN : N < 2147483648) (h : Short N k s) (hi : i < k) : Short N k (step s i) := by
  obtain ⟨hmax, hrel, hrdy, hcv, c3, c5, c6, c7, c8, c9, hd⟩ := h
  have tot := cnt_total s.pc k
  have pos := cnt_pos s.pc (s.pc i) k i hi rfl
  cases hpc : s.pc i with
  | idle =>
    simp only [step, hpc]
    obtain ⟨m0, m1, m2, m3, m4, m5, m6, m7, m8, m9⟩ :=
      forall_pc (cnt_move s.pc i k PC.idle PC.spinReady hi hpc)
    simp only [reduceCtorEq, if_true, if_false] at m0 m1 m2 m3 m4 m5 m6 m7 m8 m9
    refine ⟨hmax, hrel, hrdy, ?_, ?_, ?_, ?_, ?_, ?_, ?_, hd⟩ <;> simp only [goto] <;> omega
  | spinReady =>
    simp only [step, hpc, hrdy, if_true]
    obtain ⟨m0, m1, m2, m3, m4, m5, m6, m7, m8, m9⟩ :=
      forall_pc (cnt_move s.pc i k PC.spinReady PC.fetchSub hi hpc)
    simp only [reduceCtorEq, if_true, if_false] at m0 m1 m2 m3 m4 m5 m6 m7 m8 m9
    refine ⟨hmax, hrel, hrdy, ?_, ?_, ?_, ?_, ?_, ?_, ?_, hd⟩ <;> simp only [goto] <;> omega
  | fetchSub =>
    rw [hpc] at pos
    have hne : ¬ s.counterValue = 1 := by omega
    simp only [step, hpc, hne, if_false]
    rw [wrap32_eq (s.counterValue - 1) (by omega) (by omega)]
    obtain ⟨m0, m1, m2, m3, m4, m5, m6, m7, m8, m9⟩ :=
      forall_pc (cnt_move s.pc i k PC.fetchSub PC.spinCount hi hpc)
    simp only [reduceCtorEq, if_true, if_false] at m0 m1 m2 m3 m4 m5 m6 m7 m8 m9
    refine ⟨hmax, hrel, hrdy, ?_, ?_, ?_, ?_, ?_, ?_, ?_, hd⟩ <;> simp only [goto] <;> omega
  | spinCount =>
    have hpos : s.counterValue > 0 := by omega
    simp only [step, hpc, hpos, if_true]
    exact ⟨hmax, hrel, hrdy, hcv, c3, c5, c6, c7, c8, c9, hd⟩
  | closeGate => rw [hpc] at pos; omega
  | fetchAdd => rw [hpc] at pos; omega
  | storeCount => rw [hpc] at pos; omega
  | storeRelease => rw [hpc] at pos; omega
  | openGate => rw [hpc] at pos; omega
  | spinRelease => rw [hpc] at pos; omega

theorem reachable_short {N : Int} {k : Nat} (hk : (k : Int) < N) (hN : N < 2147483648)
    {s : State} (h : Reachable k N s) : Short N k s := by
  induction h with
  | init => exact short_init N k
  | step _ hi ih => exact short_step hk hN ih hi

/-- C6 (too few participants): if only `k < N` threads ever call `wait()` on
`busywaiting_barrier(N)` (`N` an `int`), then in every reachable state no thread has returned
from `wait()`; every thread is outside, at the entry, at the decrement, or at the spin on
`counterValue`; `counterValue` is at least `N - k > 0`, so every poll of that spin fails; and
`counterValueRelease` and `ready` are untouched.  (The steps have no error outcome.) -/
theorem too_few_never_return (N : Int) (k : Nat) (hk : (k : Int) < N) (hN : N < 2147483648)
    (s : State) (hs : Reachable k N s) :
    (∀ i, s.done i = 0)
      ∧ (∀ i, i < k → s.pc i = PC.idle ∨ s.pc i = PC.spinReady ∨ s.pc i = PC.fetchSub
          ∨ s.pc i = PC.spinCount)
      ∧ N - k ≤ s.counterValue ∧ 0 < s.counterValue
      ∧ (∀ i, i < k → s.pc i = PC.spinCount → step s i = s)
      ∧ s.counterValueRelease = 0 ∧ s.ready = true := by
  obtain ⟨_, hrel, hrdy, hcv, c3, c5, c6, c7, c8, c9, hd⟩ := reachable_short hk hN hs
  have tot := cnt_total s.pc k
  have hpos : 0 < s.counterValue := by omega
  refine ⟨hd, ?_, by omega, hpos, ?_, hrel, hrdy⟩
  · intro i hi
    have n3 := ne_of_cnt_zero s.pc _ k i hi c3
    have n5 := ne_of_cnt_zero s.pc _ k i hi c5
    have n6 := ne_of_cnt_zero s.pc _ k i hi c6
    have n7 := ne_of_cnt_zero s.pc _ k i hi c7
    have n8 := ne_of_cnt_zero s.pc _ k i hi c8
    have n9 := ne_of_cnt_zero s.pc _ k i hi c9
    cases hpc : s.pc i <;> simp_all
  · intro i _ hpc
    simp [step, hpc, hpos]

theorem too_few_never_return_witness :
    (∀ i, (run (busywaiting_barrier 3) [0, 0, 0, 1, 1, 1, 0, 1]).done i = 0)
      ∧ (∀ i, i < 2 →
          (run (busywaiting_barrier 3) [0, 0, 0, 1, 1, 1, 0, 1]).pc i = PC.idle
          ∨ (run (busywaiting_barrier 3) [0, 0, 0, 1, 1, 1, 0, 1]).pc i = PC.spinReady
          ∨ (run (busywaiting_barrier 3) [0, 0, 0, 1, 1, 1, 0, 1]).pc i = PC.fetchSub
          ∨ (run (busywaiting_barrier 3) [0, 0, 0, 1, 1, 1, 0, 1]).pc i = PC.spinCount)
      ∧ (3 : Int) - (2 : Nat) ≤ (run (busywaiting_barrier 3) [0, 0, 0, 1, 1, 1, 0, 1]).counterValue
      ∧ 0 < (run (busywaiting_barrier 3) [0, 0, 0, 1, 1, 1, 0, 1]).counterValue
      ∧ (∀ i, i < 2 → (run (busywaiting_barrier 3) [0, 0, 0, 1, 1, 1, 0, 1]).pc i = PC.spinCount →
          step (run (busywaiting_barrier 3) [0, 0, 0, 1, 1, 1, 0, 1]) i
            = run (busywaiting_barrier 3) [0, 0, 0, 1, 1, 1, 0, 1])
      ∧ (run (busywaiting_barrier 3) [0, 0, 0, 1, 1, 1, 0, 1]).counterValueRelease = 0
      ∧ (run (busywaiting_barrier 3) [0, 0, 0, 1, 1, 1, 0, 1]).ready = true :=
  too_few_never_return 3 2 (by decide) (by decide) _
    (reachable_run 2 3 [0, 0, 0, 1, 1, 1, 0, 1] (by decide))

end Barrier

/-! ## A barrier constructed with a non-positive count -/

namespace Barrier

theorem stuck_init (N : Int) (T : Nat) (hlo : -2147483648 ≤ N) (hN : N ≤ 0) :
    Stuck N T (busywaiting_barrier N) := by
  simp [Stuck, busywaiting_barrier, cnt_const]
  exact (wrap32_eq N hlo (by omega)).symm

theorem stuck_step {N : Int} {T : Nat} {s : State} {i : Nat} (hlo : -2147483648 ≤ N)
    (hN : N ≤ 0) (hT : T < 2147483648) (h : Stuck N T s) (hi : i < T) :
    Stuck N T (step s i) := by
  obtain ⟨hmax, hrdy, hrel, hcv, c3, c6, c7, c8, hd⟩ := h
  have tot := cnt_total s.pc T
  have pos := cnt_pos s.pc (s.pc i) T i hi rfl
  cases hpc : s.pc i with
  | idle =>
    simp only [step, hpc]
    obtain ⟨m0, m1, m2, m3, m4, m5, m6, m7, m8, m9⟩ :=
      forall_pc (cnt_move s.pc i T PC.idle PC.spinReady hi hpc)
    simp only [reduceCtorEq, if_true, if_false] at m0 m1 m2 m3 m4 m5 m6 m7 m8 m9
    refine ⟨hmax, hrdy, ?_, ?_, ?_, ?_, ?_, ?_, hd⟩ <;> simp only [goto] <;>
      simp only [wrap32] at hcv ⊢ <;> omega
  | spinReady =>
    simp only [step, hpc, hrdy, if_true]
    obtain ⟨m0, m1, m2, m3, m4, m5, m6, m7, m8, m9⟩ :=
      forall_pc (cnt_move s.pc i T PC.spinReady PC.fetchSub hi hpc)
    simp only [reduceCtorEq, if_true, if_false] at m0 m1 m2 m3 m4 m5 m6 m7 m8 m9
    refine ⟨hmax, hrdy, ?_, ?_, ?_, ?_, ?_, ?_, hd⟩ <;> simp only [goto] <;>
      simp only [wrap32] at hcv ⊢ <;> omega
  | fetchSub =>
    rw [hpc] at pos
    have hne : ¬ s.counterValue = 1 := by
      simp only [wrap32] at hcv
      omega
    simp only [step, hpc, hne, if_false]
    obtain ⟨m0, m1, m2, m3, m4, m5, m6, m7, m8, m9⟩ :=
      forall_pc (cnt_move s.pc i T PC.fetchSub PC.spinCount hi hpc)
    simp only [reduceCtorEq, if_true, if_false] at m0 m1 m2 m3 m4 m5 m6 m7 m8 m9
    refine ⟨hmax, hrdy, ?_, ?_, ?_, ?_, ?_, ?_, hd⟩ <;> simp only [goto] <;>
      simp only [wrap32] at hcv ⊢ <;> omega
  | spinCount =>
    simp only [step, hpc]
    by_cases hc : s.counterValue > 0
    · rw [if_pos hc]
      exact ⟨hmax, hrdy, hrel, hcv, c3, c6, c7, c8, hd⟩
    · rw [if_neg hc]
      obtain ⟨m0, m1, m2, m3, m4, m5, m6, m7, m8, m9⟩ :=
        forall_pc (cnt_move s.pc i T PC.spinCount PC.fetchAdd hi hpc)
      simp only [reduceCtorEq, if_true, if_false] at m0 m1 m2 m3 m4 m5 m6 m7 m8 m9
      refine ⟨hmax, hrdy, ?_, ?_, ?_, ?_, ?_, ?_, hd⟩ <;> simp only [goto] <;>
        simp only [wrap32] at hcv ⊢ <;> omega
  | fetchAdd =>
    rw [hpc] at pos
    have hne : ¬ s.counterValueRelease = wrap32 (s.counterValueMax - 1) := by
      rw [hmax]
      simp only [wrap32]
      omega
    simp only [step, hpc, hne, if_false]
    rw [wrap32_eq (s.counterValueRelease + 1) (by omega) (by omega)]
    obtain ⟨m0, m1, m2, m3, m4, m5, m6, m7, m8, m9⟩ :=
      forall_pc (cnt_move s.pc i T PC.fetchAdd PC.spinRelease hi hpc)
    simp only [reduceCtorEq, if_true, if_false] at m0 m1 m2 m3 m4 m5 m6 m7 m8 m9
    refine ⟨hmax, hrdy, ?_, ?_, ?_, ?_, ?_, ?_, hd⟩ <;> simp only [goto] <;>
      simp only [wrap32] at hcv ⊢ <;> omega
  | spinRelease =>
    rw [hpc] at pos
    have hpos : s.counterValueRelease > 0 := by omega
    simp only [step, hpc, hpos, if_true]
    exact ⟨hmax, hrdy, hrel, hcv, c3, c6, c7, c8, hd⟩
  | closeGate => rw [hpc] at pos; omega
  | storeCount => rw [hpc] at pos; omega
  | storeRelease => rw [hpc] at pos; omega
  | openGate => rw [hpc] at pos; omega

theorem reachable_stuck {N : Int} {T : Nat} (hlo : -2147483648 ≤ N) (hN : N ≤ 0)
    (hT : T < 2147483648) {s : State} (h : Reachable T N s) : Stuck N T s := by
  induction h with
  | init => exact stuck_init N T hlo hN
  | step _ hi ih => exact stuck_step hlo hN hT ih hi

/-- C10 as stated fails at the lower end of `int`: on `busywaiting_barrier(-2147483647)` with
two threads, the second `fetch_sub` wraps `counterValue` round to `2147483647`; both callers
are then held at the spin on `counterValue`, not at the final spin, and
`counterValueRelease` is still 0. -/
theorem held_at_count_spin :
    Reachable 2 (-2147483647) (run (busywaiting_barrier (-2147483647)) [0, 0, 0, 1, 1, 1])
      ∧ (run (busywaiting_barrier (-2147483647)) [0, 0, 0, 1, 1, 1]).counterValue = 2147483647
      ∧ (run (busywaiting_barrier (-2147483647)) [0, 0, 0, 1, 1, 1]).counterValueRelease = 0
      ∧ (run (busywaiting_barrier (-2147483647)) [0, 0, 0, 1, 1, 1]).pc 0 = PC.spinCount
      ∧ (run (busywaiting_barrier (-2147483647)) [0, 0, 0, 1, 1, 1]).pc 1 = PC.spinCount
      ∧ blocked (run (busywaiting_barrier (-2147483647)) [0, 0, 0, 1, 1, 1]) 0 = true
      ∧ blocked (run (busywaiting_barrier (-2147483647)) [0, 0, 0, 1, 1, 1]) 1 = true :=
  ⟨reachable_run 2 (-2147483647) _ (by decide), by decide, by decide, by decide, by decide,
    by decide, by decide⟩

/-- C10 amended: for every `int` `N <= 0` the constructor yields `counterValue = N`,
`counterValueRelease = 0`, `ready = true`, `counterValueMax = N`, and for any number
`T < 2^31` of threads calling `wait()`, in every reachable state no thread has returned from
`wait()`: the reset block is never entered (no thread stands at one of its three stores, so
`counterValueRelease` is never cleared), `counterValueRelease` is positive as soon as a thread
stands at the final spin, and every poll of that spin fails.  As long as `N - T` does not fall
below the least `int`, `counterValue` stays non-positive and the final spin is the only loop
that holds a caller.  (The steps have no error outcome.) -/
theorem nonpositive_never_returns (N : Int) (T : Nat) (hlo : -2147483648 ≤ N) (hN : N ≤ 0)
    (hT : T < 2147483648) (s : State) (hs : Reachable T N s) :
    ((busywaiting_barrier N).counterValue = N
        ∧ (busywaiting_barrier N).counterValueRelease = 0
        ∧ (busywaiting_barrier N).ready = true
        ∧ (busywaiting_barrier N).counterValueMax = N)
      ∧ (∀ i, s.done i = 0)
      ∧ (∀ i, i < T → s.pc i ≠ PC.closeGate ∧ s.pc i ≠ PC.storeCount
          ∧ s.pc i ≠ PC.storeRelease ∧ s.pc i ≠ PC.openGate)
      ∧ (∀ i, i < T → s.pc i = PC.spinRelease → 0 < s.counterValueRelease ∧ step s i = s)
      ∧ s.ready = true
      ∧ (-2147483648 ≤ N - T →
          s.counterValue ≤ 0 ∧ ∀ i, i < T → blocked s i = true → s.pc i = PC.spinRelease) := by
  obtain ⟨_, hrdy, hrel, hcv, c3, c6, c7, c8, hd⟩ := reachable_stuck hlo hN hT hs
  have tot := cnt_total s.pc T
  refine ⟨⟨rfl, rfl, rfl, rfl⟩, hd, ?_, ?_, hrdy, ?_⟩
  · intro i hi
    exact ⟨ne_of_cnt_zero s.pc _ T i hi c3, ne_of_cnt_zero s.pc _ T i hi c6,
      ne_of_cnt_zero s.pc _ T i hi c7, ne_of_cnt_zero s.pc _ T i hi c8⟩
  · intro i hi hpc
    have pos := cnt_pos s.pc PC.spinRelease T i hi hpc
    have hpos : s.counterValueRelease > 0 := by omega
    exact ⟨hpos, by simp [step, hpc, hpos]⟩
  · intro h
    have hle : s.counterValue ≤ 0 := by
      simp only [wrap32] at hcv
      omega
    refine ⟨hle, ?_⟩
    intro i _ hb
    unfold blocked at hb
    cases hpc : s.pc i <;> simp only [hpc] at hb <;> first
      | rfl
      | (simp [hrdy] at hb; done)
      | (simp at hb; omega)

theorem nonpositive_never_returns_witness :
    ((busywaiting_barrier 0).counterValue = 0
        ∧ (busywaiting_barrier 0).counterValueRelease = 0
        ∧ (busywaiting_barrier 0).ready = true
        ∧ (busywaiting_barrier 0).counterValueMax = 0)
      ∧ (∀ i, (run (busywaiting_barrier 0) [0, 0, 0, 0, 0, 0, 1]).done i = 0)
      ∧ (∀ i, i < 2 →
          (run (busywaiting_barrier 0) [0, 0, 0, 0, 0, 0, 1]).pc i ≠ PC.closeGate
          ∧ (run (busywaiting_barrier 0) [0, 0, 0, 0, 0, 0, 1]).pc i ≠ PC.storeCount
          ∧ (run (busywaiting_barrier 0) [0, 0, 0, 0, 0, 0, 1]).pc i ≠ PC.storeRelease
          ∧ (run (busywaiting_barrier 0) [0, 0, 0, 0, 0, 0, 1]).pc i ≠ PC.openGate)
      ∧ (∀ i, i < 2 →
          (run (busywaiting_barrier 0) [0, 0, 0, 0, 0, 0, 1]).pc i = PC.spinRelease →
          0 < (run (busywaiting_barrier 0) [0, 0, 0, 0, 0, 0, 1]).counterValueRelease
          ∧ step (run (busywaiting_barrier 0) [0, 0, 0, 0, 0, 0, 1]) i
              = run (busywaiting_barrier 0) [0, 0, 0, 0, 0, 0, 1])
      ∧ (run (busywaiting_barrier 0) [0, 0, 0, 0, 0, 0, 1]).ready = true
      ∧ (-2147483648 ≤ (0 : Int) - (2 : Nat) →
          (run (busywaiting_barrier 0) [0, 0, 0, 0, 0, 0, 1]).counterValue ≤ 0
          ∧ ∀ i, i < 2 → blocked (run (busywaiting_barrier 0) [0, 0, 0, 0, 0, 0, 1]) i = true →
              (run (busywaiting_barrier 0) [0, 0, 0, 0, 0, 0, 1]).pc i = PC.spinRelease) :=
  nonpositive_never_returns 0 2 (by decide) (by decide) (by decide) _
    (reachable_run 2 0 [0, 0, 0, 0, 0, 0, 1] (by decide))

end Barrier

/-! ## Exactly `N` threads: bounds of the two counters, the gate during the reset -/

namespace Barrier

/-- C13 as stated fails for `N = 2`: after this interleaving the second `fetch_add` has
returned `N - 1 = 1`, `counterValueRelease` is `2 = N`, and thread 1 stands before the reset
stores. -/
theorem release_counter_reaches_max :
    Reachable 2 2 (run (busywaiting_barrier 2) [0, 0, 0, 1, 1, 1, 1, 0, 0, 1, 1])
      ∧ (run (busywaiting_barrier 2) [0, 0, 0, 1, 1, 1, 1, 0, 0, 1, 1]).counterValueRelease = 2
      ∧ (run (busywaiting_barrier 2) [0, 0, 0, 1, 1, 1, 1, 0, 0, 1, 1]).pc 1 = PC.storeCount :=
  ⟨reachable_run 2 2 _ (by decide), by decide, by decide⟩

/-- C13 amended: with exactly `N >= 1` threads, in every reachable state
`0 <= counterValueRelease <= N`; the value `N` occurs only while the last departer stands at
`counterValue.store` or `counterValueRelease.store(0)`, and every `fetch_add` observes a prior
value between 0 and `N - 1`. -/
theorem release_bound (N : Nat) (hN1 : 1 ≤ N) (hN : N < 2147483648) (s : State)
    (hs : Reachable N (N : Int) s) :
    0 ≤ s.counterValueRelease ∧ s.counterValueRelease ≤ N
      ∧ (s.counterValueRelease = N →
          ∃ i, i < N ∧ (s.pc i = PC.storeCount ∨ s.pc i = PC.storeRelease))
      ∧ (∀ i, i < N → s.pc i = PC.fetchAdd →
          0 ≤ s.counterValueRelease ∧ s.counterValueRelease ≤ (N : Int) - 1) := by
  obtain ⟨⟨_, hph⟩, _⟩ := reachable_inv hN1 hN hs
  have tot := cnt_total s.pc N
  simp only [Arriving, Leaving] at hph
  refine ⟨?_, ?_, ?_, ?_⟩
  · rcases hph with hA | hB <;> omega
  · rcases hph with hA | hB <;> omega
  · intro h
    have h56 : 1 ≤ cnt s.pc PC.storeCount N ∨ 1 ≤ cnt s.pc PC.storeRelease N := by
      rcases hph with hA | hB <;> omega
    rcases h56 with h5 | h6
    · obtain ⟨i, hi, e⟩ := exists_of_cnt_pos s.pc _ N h5
      exact ⟨i, hi, Or.inl e⟩
    · obtain ⟨i, hi, e⟩ := exists_of_cnt_pos s.pc _ N h6
      exact ⟨i, hi, Or.inr e⟩
  · intro i hi hpc
    have pos := cnt_pos s.pc PC.fetchAdd N i hi hpc
    rcases hph with hA | hB <;> omega

theorem release_bound_witness :
    0 ≤ (run (busywaiting_barrier 2) [0, 0, 0, 1, 1, 1, 1, 0, 0, 1, 1]).counterValueRelease
      ∧ (run (busywaiting_barrier 2) [0, 0, 0, 1, 1, 1, 1, 0, 0, 1, 1]).counterValueRelease
          ≤ ((2 : Nat) : Int)
      ∧ ((run (busywaiting_barrier 2) [0, 0, 0, 1, 1, 1, 1, 0, 0, 1, 1]).counterValueRelease
          = ((2 : Nat) : Int) →
          ∃ i, i < 2
            ∧ ((run (busywaiting_barrier 2) [0, 0, 0, 1, 1, 1, 1, 0, 0, 1, 1]).pc i
                = PC.storeCount
              ∨ (run (busywaiting_barrier 2) [0, 0, 0, 1, 1, 1, 1, 0, 0, 1, 1]).pc i
                = PC.storeRelease))
      ∧ (∀ i, i < 2 →
          (run (busywaiting_barrier 2) [0, 0, 0, 1, 1, 1, 1, 0, 0, 1, 1]).pc i = PC.fetchAdd →
          0 ≤ (run (busywaiting_barrier 2) [0, 0, 0, 1, 1, 1, 1, 0, 0, 1, 1]).counterValueRelease
          ∧ (run (busywaiting_barrier 2) [0, 0, 0, 1, 1, 1, 1, 0, 0, 1, 1]).counterValueRelease
              ≤ ((2 : Nat) : Int) - 1) :=
  release_bound 2 (by decide) (by decide) _
    (reachable_run 2 2 [0, 0, 0, 1, 1, 1, 1, 0, 0, 1, 1] (by decide))

/-- C14 (arrival counter bound): with exactly `N >= 1` threads, in every reachable state
`0 <= counterValue <= N`, and every `fetch_sub` observes a prior value between 1 and `N`, so
the counter never goes below 0. -/
theorem count_bound (N : Nat) (hN1 : 1 ≤ N) (hN : N < 2147483648) (s : State)
    (hs : Reachable N (N : Int) s) :
    0 ≤ s.counterValue ∧ s.counterValue ≤ N
      ∧ (∀ i, i < N → s.pc i = PC.fetchSub →
          1 ≤ s.counterValue ∧ s.counterValue ≤ N
            ∧ (step s i).counterValue = s.counterValue - 1) := by
  obtain ⟨⟨_, hph⟩, _⟩ := reachable_inv hN1 hN hs
  have tot := cnt_total s.pc N
  simp only [Arriving, Leaving] at hph
  have hb : 0 ≤ s.counterValue ∧ s.counterValue ≤ N := by
    rcases hph with hA | hB <;> omega
  refine ⟨hb.1, hb.2, ?_⟩
  intro i hi hpc
  have pos := cnt_pos s.pc PC.fetchSub N i hi hpc
  have h1 : 1 ≤ s.counterValue := by
    rcases hph with hA | hB <;> omega
  refine ⟨h1, hb.2, ?_⟩
  have hw := wrap32_eq (s.counterValue - 1) (by omega) (by omega)
  simp only [step, hpc]
  split <;> simp [goto, hw]

theorem count_bound_witness :
    0 ≤ (run (busywaiting_barrier 2) [0, 0, 0, 1, 1]).counterValue
      ∧ (run (busywaiting_barrier 2) [0, 0, 0, 1, 1]).counterValue ≤ ((2 : Nat) : Int)
      ∧ (∀ i, i < 2 → (run (busywaiting_barrier 2) [0, 0, 0, 1, 1]).pc i = PC.fetchSub →
          1 ≤ (run (busywaiting_barrier 2) [0, 0, 0, 1, 1]).counterValue
          ∧ (run (busywaiting_barrier 2) [0, 0, 0, 1, 1]).counterValue ≤ ((2 : Nat) : Int)
          ∧ (step (run (busywaiting_barrier 2) [0, 0, 0, 1, 1]) i).counterValue
              = (run (busywaiting_barrier 2) [0, 0, 0, 1, 1]).counterValue - 1) :=
  count_bound 2 (by decide) (by decide) _
    (reachable_run 2 2 [0, 0, 0, 1, 1] (by decide))

/-- C16 (the gate is closed throughout the reset): with exactly `N >= 1` threads, while a
thread stands at one of the three reset stores (from the step in which its `fetch_add`
returned `N - 1` until it has stored `ready = true`), `ready` is false, no thread stands at
the `fetch_sub`, a thread at the entry spin stays there, and no step of any thread is a
decrement of `counterValue`. -/
theorem gate_closed_during_reset (N : Nat) (hN1 : 1 ≤ N) (hN : N < 2147483648) (s : State)
    (hs : Reachable N (N : Int) s) (i : Nat) (hi : i < N)
    (hin : s.pc i = PC.storeCount ∨ s.pc i = PC.storeRelease ∨ s.pc i = PC.openGate) :
    s.ready = false
      ∧ (∀ j, j < N → s.pc j ≠ PC.fetchSub)
      ∧ (∀ j, j < N → s.pc j = PC.spinReady → step s j = s)
      ∧ (∀ j k, j < N → decrements (step s j) k = decrements s k) := by
  obtain ⟨⟨_, hph⟩, _⟩ := reachable_inv hN1 hN hs
  have tot := cnt_total s.pc N
  have pos := cnt_pos s.pc (s.pc i) N i hi rfl
  simp only [Arriving, Leaving] at hph
  have h1 : cnt s.pc PC.fetchSub N = 0 := by
    rcases hin with h | h | h <;> rw [h] at pos <;> rcases hph with hA | hB <;> omega
  have hr : s.ready = false := by
    cases hr : s.ready
    · rfl
    · exfalso
      simp only [hr, reduceCtorEq, false_implies, true_implies, imp_false] at hph
      rcases hin with h | h | h <;> rw [h] at pos <;> rcases hph with hA | hB <;> omega
  have hne : ∀ j, j < N → s.pc j ≠ PC.fetchSub := fun j hj => ne_of_cnt_zero s.pc _ N j hj h1
  refine ⟨hr, hne, ?_, ?_⟩
  · intro j _ hpc
    simp [step, hpc, hr]
  · intro j k hj
    by_cases hk : k = j
    · subst hk
      rw [decrements_step, if_neg (hne k hj)]
      rfl
    · exact decrements_step_other s j k hk

theorem gate_closed_during_reset_witness :
    (run (busywaiting_barrier 2) [0, 0, 0, 1, 1, 1, 1, 0, 0, 1, 1]).ready = false
      ∧ (∀ j, j < 2 →
          (run (busywaiting_barrier 2) [0, 0, 0, 1, 1, 1, 1, 0, 0, 1, 1]).pc j ≠ PC.fetchSub)
      ∧ (∀ j, j < 2 →
          (run (busywaiting_barrier 2) [0, 0, 0, 1, 1, 1, 1, 0, 0, 1, 1]).pc j = PC.spinReady →
          step (run (busywaiting_barrier 2) [0, 0, 0, 1, 1, 1, 1, 0, 0, 1, 1]) j
            = run (busywaiting_barrier 2) [0, 0, 0, 1, 1, 1, 1, 0, 0, 1, 1])
      ∧ (∀ j k, j < 2 →
          decrements (step (run (busywaiting_barrier 2) [0, 0, 0, 1, 1, 1, 1, 0, 0, 1, 1]) j) k
            = decrements (run (busywaiting_barrier 2) [0, 0, 0, 1, 1, 1, 1, 0, 0, 1, 1]) k) :=
  gate_closed_during_reset 2 (by decide) (by decide) _
    (reachable_run 2 2 [0, 0, 0, 1, 1, 1, 1, 0, 0, 1, 1] (by decide)) 1 (by decide)
    (Or.inl (by decide))

end Barrier

/-! ## Exactly `N` threads: one reset per round -/

namespace Barrier

/-- The count `increments` goes up by one exactly when the thread performs the `fetch_add`. -/
theorem increments_step (s : State) (i : Nat) :
    increments (step s i) i = increments s i + (if s.pc i = PC.fetchAdd then 1 else 0) := by
  unfold increments step
  cases hpc : s.pc i <;> simp only [hpc]
  · simp [goto, setAt, hpc]
  · split <;> simp [goto, setAt, hpc]
  · split <;> simp [goto, setAt, hpc]
  · simp [goto, setAt, hpc]
  · split <;> simp [goto, setAt, hpc]
  · split <;> simp [goto, setAt, hpc]
  · simp [goto, setAt, hpc]
  · simp [goto, setAt, hpc]
  · simp [goto, setAt, hpc]
  · split <;> simp [goto, setAt, hpc]

/-- A step of thread `i` leaves the increments of every other thread as they are. -/
theorem increments_step_other (s : State) (i j : Nat) (h : j ≠ i) :
    increments (step s i) j = increments s j := by
  unfold increments
  rw [(step_other s i j h).1, (step_other s i j h).2]

/-- The stepping thread gets through one more round exactly when it stores
`counterValueRelease = 0`. -/
theorem passed_step_self {N : Nat} {s : State} {i : Nat} (hN : N < 2147483648)
    (hc : Counted N s) (hi : i < N) :
    passed (step s i) i = passed s i + (if s.pc i = PC.storeRelease then 1 else 0) := by
  have tot := cnt_total s.pc N
  have pos := cnt_pos s.pc (s.pc i) N i hi rfl
  obtain ⟨_, hph⟩ := hc
  simp only [Arriving, Leaving] at hph
  have hb : 0 ≤ s.counterValueRelease ∧ s.counterValueRelease + 1 < 2147483648 ∨
      s.pc i ≠ PC.fetchAdd := by
    by_cases h : s.pc i = PC.fetchAdd
    · left
      rw [h] at pos
      rcases hph with hA | hB <;> omega
    · exact Or.inr h
  have hz : s.pc i = PC.openGate → s.counterValueRelease = 0 := by
    intro h
    rw [h] at pos
    rcases hph with hA | hB <;> omega
  have hz' : ¬ s.counterValueRelease > 0 → s.counterValueRelease = 0 := by
    intro h
    rcases hph with hA | hB <;> omega
  clear hph tot
  unfold passed step
  cases hpc : s.pc i <;> simp only [hpc] at hb hz pos ⊢
  · simp [goto, setAt, hpc]
  · split <;> simp [goto, setAt, hpc]
  · split <;> simp [goto, setAt, hpc]
  · simp [goto, setAt, hpc]
  · split <;> simp [goto, setAt, hpc]
  · rcases hb with hb | hb
    · have hw := wrap32_eq (s.counterValueRelease + 1) (by omega) (by omega)
      have hne : s.counterValueRelease + 1 ≠ 0 := by omega
      split <;> simp [goto, setAt, hpc, hw, hne]
    · exact absurd rfl hb
  · simp [goto, setAt, hpc]
  · simp [goto, setAt, hpc]
  · simp [goto, setAt, hpc, hz]
  · split
    · simp [hpc]
    · rename_i h
      simp [goto, setAt, hpc, hz' h]

/-- Every thread gets through one more round exactly when some thread stores
`counterValueRelease = 0`. -/
theorem passed_step {N : Nat} {s : State} {i : Nat} (hN : N < 2147483648)
    (h : Inv N s) (hi : i < N) (k : Nat) (hk : k < N) :
    passed (step s i) k = passed s k + (if s.pc i = PC.storeRelease then 1 else 0) := by
  rw [synced_step hN h.1 h.2 hi k i hk hi, passed_step_self hN h.1 hi, h.2 k i hk hi]

end Barrier

namespace Barrier

/-- The reset block is entered exactly by the step of a `fetch_add` that returns `N - 1`. -/
theorem resets_step {N : Nat} {s : State} {i : Nat} (hN1 : 1 ≤ N) (hN : N < 2147483648)
    (h : Inv N s) (hi : i < N) :
    resets N (step s i)
      = resets N s
        + (if s.pc i = PC.fetchAdd ∧ s.counterValueRelease = (N : Int) - 1 then 1 else 0) := by
  have hp := passed_step hN h hi 0 (by omega)
  have tot := cnt_total s.pc N
  have pos := cnt_pos s.pc (s.pc i) N i hi rfl
  obtain ⟨⟨hmax, hph⟩, _⟩ := h
  simp only [Arriving, Leaving] at hph
  have hw : wrap32 (s.counterValueMax - 1) = (N : Int) - 1 := by
    rw [hmax]
    exact wrap32_eq _ (by omega) (by omega)
  have h56 : cnt s.pc PC.storeCount N + cnt s.pc PC.storeRelease N ≤ 1 := by
    rcases hph with hA | hB <;> omega
  have h4 : s.pc i = PC.fetchAdd →
      cnt s.pc PC.storeCount N + cnt s.pc PC.storeRelease N = 0 := by
    intro e
    rw [e] at pos
    rcases hph with hA | hB <;> omega
  clear hph tot
  have m5 : ∀ Y, cnt (setAt s.pc i Y) PC.storeCount N
      + (if s.pc i = PC.storeCount then 1 else 0)
      = cnt s.pc PC.storeCount N + (if Y = PC.storeCount then 1 else 0) :=
    fun Y => cnt_setAt s.pc i Y PC.storeCount N hi
  have m6 : ∀ Y, cnt (setAt s.pc i Y) PC.storeRelease N
      + (if s.pc i = PC.storeRelease then 1 else 0)
      = cnt s.pc PC.storeRelease N + (if Y = PC.storeRelease then 1 else 0) :=
    fun Y => cnt_setAt s.pc i Y PC.storeRelease N hi
  unfold resets
  rw [hp]
  have key : ∀ Y, (step s i).pc = setAt s.pc i Y →
      (Y = PC.storeCount ↔ s.pc i = PC.fetchAdd ∧ s.counterValueRelease = (N : Int) - 1) →
      (Y = PC.storeRelease ↔ s.pc i = PC.storeCount) →
      (passed s 0 + (if s.pc i = PC.storeRelease then 1 else 0)
        + (if 1 ≤ cnt (step s i).pc PC.storeCount N + cnt (step s i).pc PC.storeRelease N
            then 1 else 0)
        = passed s 0
          + (if 1 ≤ cnt s.pc PC.storeCount N + cnt s.pc PC.storeRelease N then 1 else 0)
          + (if s.pc i = PC.fetchAdd ∧ s.counterValueRelease = (N : Int) - 1
              then 1 else 0)) := by
    intro Y e e5 e6
    rw [e]
    have a5 := m5 Y
    have a6 := m6 Y
    by_cases c5 : s.pc i = PC.storeCount
    · have y6 : Y = PC.storeRelease := e6.2 c5
      have n4 : ¬ (s.pc i = PC.fetchAdd ∧ s.counterValueRelease = (N : Int) - 1) := by
        rw [c5]; simp
      rw [c5] at pos
      rw [if_neg n4]
      simp only [c5, y6, reduceCtorEq, if_true, if_false] at a5 a6 ⊢
      have hnew : 1 ≤ cnt (setAt s.pc i PC.storeRelease) PC.storeCount N
          + cnt (setAt s.pc i PC.storeRelease) PC.storeRelease N := by omega
      have hold : 1 ≤ cnt s.pc PC.storeCount N + cnt s.pc PC.storeRelease N := by omega
      rw [if_pos hnew, if_pos hold]
    · by_cases c6 : s.pc i = PC.storeRelease
      · have n4 : ¬ (s.pc i = PC.fetchAdd ∧ s.counterValueRelease = (N : Int) - 1) := by
          rw [c6]; simp
        have y5 : ¬ Y = PC.storeCount := fun e => n4 (e5.1 e)
        have y6 : ¬ Y = PC.storeRelease := fun e => c5 (e6.1 e)
        rw [c6] at pos
        rw [if_neg n4]
        simp only [c6, y5, y6, reduceCtorEq, if_true, if_false] at a5 a6 ⊢
        have hnew : ¬ 1 ≤ cnt (setAt s.pc i Y) PC.storeCount N
            + cnt (setAt s.pc i Y) PC.storeRelease N := by omega
        have hold : 1 ≤ cnt s.pc PC.storeCount N + cnt s.pc PC.storeRelease N := by omega
        rw [if_neg hnew, if_pos hold]
      · have y6 : ¬ Y = PC.storeRelease := fun e => c5 (e6.1 e)
        simp only [c5, c6, y6, if_false] at a5 a6 ⊢
        by_cases c4 : s.pc i = PC.fetchAdd ∧ s.counterValueRelease = (N : Int) - 1
        · have y5 : Y = PC.storeCount := e5.2 c4
          have z := h4 c4.1
          subst y5
          simp only [if_true] at a5
          have hnew : 1 ≤ cnt (setAt s.pc i PC.storeCount) PC.storeCount N
              + cnt (setAt s.pc i PC.storeCount) PC.storeRelease N := by omega
          have hold : ¬ 1 ≤ cnt s.pc PC.storeCount N + cnt s.pc PC.storeRelease N := by omega
          rw [if_pos c4, if_pos hnew, if_neg hold]
        · have y5 : ¬ Y = PC.storeCount := fun e => c4 (e5.1 e)
          simp only [y5, if_false] at a5
          rw [if_neg c4]
          have e1 : cnt (setAt s.pc i Y) PC.storeCount N = cnt s.pc PC.storeCount N := by omega
          have e2 : cnt (setAt s.pc i Y) PC.storeRelease N = cnt s.pc PC.storeRelease N := by
            omega
          rw [e1, e2]
          rfl
  have self : ∀ Y, s.pc i = Y → s.pc = setAt s.pc i Y := by
    intro Y e
    funext j
    by_cases hj : j = i
    · subst hj
      simp [setAt, e]
    · simp [setAt, hj]
  have hcases : s.pc i = PC.idle ∨ s.pc i = PC.spinReady ∨ s.pc i = PC.fetchSub
      ∨ s.pc i = PC.closeGate ∨ s.pc i = PC.spinCount ∨ s.pc i = PC.fetchAdd
      ∨ s.pc i = PC.storeCount ∨ s.pc i = PC.storeRelease ∨ s.pc i = PC.openGate
      ∨ s.pc i = PC.spinRelease := by
    cases s.pc i <;> simp
  rcases hcases with hpc | hpc | hpc | hpc | hpc | hpc | hpc | hpc | hpc | hpc
  · exact key PC.spinReady (by simp [step, hpc, goto]) (by simp [hpc]) (by simp [hpc])
  · by_cases hr : s.ready = true
    · exact key PC.fetchSub (by simp [step, hpc, goto, hr]) (by simp [hpc]) (by simp [hpc])
    · exact key PC.spinReady (by simp [step, hpc, hr]; exact self _ hpc) (by simp [hpc])
        (by simp [hpc])
  · by_cases hc : s.counterValue = 1
    · exact key PC.closeGate (by simp [step, hpc, goto, hc]) (by simp [hpc]) (by simp [hpc])
    · exact key PC.spinCount (by simp [step, hpc, goto, hc]) (by simp [hpc]) (by simp [hpc])
  · exact key PC.spinCount (by simp [step, hpc, goto]) (by simp [hpc]) (by simp [hpc])
  · by_cases hc : s.counterValue > 0
    · exact key PC.spinCount (by simp [step, hpc, hc]; exact self _ hpc) (by simp [hpc])
        (by simp [hpc])
    · exact key PC.fetchAdd (by simp [step, hpc, goto, hc]) (by simp [hpc]) (by simp [hpc])
  · by_cases hc : s.counterValueRelease = (N : Int) - 1
    · exact key PC.storeCount (by simp [step, hpc, goto, hw, hc]) (by simp [hpc, hc])
        (by simp [hpc])
    · exact key PC.spinRelease (by simp [step, hpc, goto, hw, hc]) (by simp [hpc, hc])
        (by simp [hpc])
  · exact key PC.storeRelease (by simp [step, hpc, goto]) (by simp [hpc]) (by simp [hpc])
  · exact key PC.openGate (by simp [step, hpc, goto]) (by simp [hpc]) (by simp [hpc])
  · exact key PC.spinRelease (by simp [step, hpc, goto]) (by simp [hpc]) (by simp [hpc])
  · by_cases hc : s.counterValueRelease > 0
    · exact key PC.spinRelease (by simp [step, hpc, hc]; exact self _ hpc) (by simp [hpc])
        (by simp [hpc])
    · exact key PC.idle (by simp [step, hpc, goto, hc]) (by simp [hpc]) (by simp [hpc])

end Barrier

namespace Barrier

/-- No reset has been entered when the barrier is constructed. -/
theorem resets_init (N : Nat) : resets N (busywaiting_barrier N) = 0 := by
  simp [resets, passed, busywaiting_barrier, cnt_const]

/-- A thread stands at a place that is not excluded by a zero count. -/
theorem place_of_counts (pc : Nat → PC) (N j : Nat) (hj : j < N) (P : PC → Prop)
    (h : ∀ X, ¬ P X → cnt pc X N = 0) : P (pc j) := by
  by_contra hn
  exact ne_of_cnt_zero pc (pc j) N j hj (h _ hn) rfl

/-- In every reachable state each thread's completed calls, decrements and increments are the
number of resets or one more or less, as the round in progress dictates. -/
theorem resets_bounds {N : Nat} {s : State} (hN1 : 1 ≤ N) (h : Inv N s) {j : Nat}
    (hj : j < N) :
    s.done j ≤ resets N s ∧ resets N s ≤ s.done j + 1
      ∧ resets N s ≤ increments s j ∧ increments s j ≤ resets N s + 1
      ∧ resets N s ≤ decrements s j ∧ decrements s j ≤ resets N s + 1 := by
  obtain ⟨⟨_, hph⟩, hsync⟩ := h
  have hsy := hsync j 0 hj (by omega)
  have tot := cnt_total s.pc N
  have pos := cnt_pos s.pc (s.pc j) N j hj rfl
  simp only [Arriving, Leaving] at hph
  have F : (1 ≤ cnt s.pc PC.idle N + cnt s.pc PC.spinReady N + cnt s.pc PC.fetchSub N
          + cnt s.pc PC.closeGate N + cnt s.pc PC.spinCount N + cnt s.pc PC.fetchAdd N
          + cnt s.pc PC.openGate N →
        cnt s.pc PC.storeCount N + cnt s.pc PC.storeRelease N = 0)
      ∧ (s.counterValueRelease = 0 →
        cnt s.pc PC.storeCount N + cnt s.pc PC.storeRelease N = 0) := by
    rcases hph with hA | hB
    · exact ⟨fun _ => by omega, fun _ => by omega⟩
    · exact ⟨fun _ => by omega, fun _ => by omega⟩
  clear hph
  obtain ⟨F1, F2⟩ := F
  unfold resets increments decrements
  rw [← hsy]
  unfold passed
  have hcases : s.pc j = PC.idle ∨ s.pc j = PC.spinReady ∨ s.pc j = PC.fetchSub
      ∨ s.pc j = PC.closeGate ∨ s.pc j = PC.spinCount ∨ s.pc j = PC.fetchAdd
      ∨ s.pc j = PC.storeCount ∨ s.pc j = PC.storeRelease ∨ s.pc j = PC.openGate
      ∨ s.pc j = PC.spinRelease := by
    cases s.pc j <;> simp
  rcases hcases with e | e | e | e | e | e | e | e | e | e <;> rw [e] at pos <;>
    simp only [e, reduceCtorEq, false_or, or_false, false_and, true_and, or_true, true_or,
      if_true, if_false, or_self] <;>
    split_ifs <;> omega

/-- When a `fetch_add` is about to return `N - 1`, all other threads stand at the final
spin: they have incremented `counterValueRelease` in this round. -/
theorem last_increment {N : Nat} {s : State} (hN1 : 1 ≤ N) (h : Inv N s) {i : Nat}
    (hi : i < N) (hpc : s.pc i = PC.fetchAdd) (hc : s.counterValueRelease = (N : Int) - 1) :
    ∀ j, j < N → j ≠ i → s.pc j = PC.spinRelease := by
  obtain ⟨⟨_, hph⟩, _⟩ := h
  have tot := cnt_total s.pc N
  have pos := cnt_pos s.pc (s.pc i) N i hi rfl
  rw [hpc] at pos
  simp only [Arriving, Leaving] at hph
  intro j hj hne
  have hN2 : 2 ≤ N := by omega
  have Z : cnt s.pc PC.idle N = 0 ∧ cnt s.pc PC.spinReady N = 0 ∧ cnt s.pc PC.fetchSub N = 0
      ∧ cnt s.pc PC.closeGate N = 0 ∧ cnt s.pc PC.spinCount N = 0
      ∧ cnt s.pc PC.fetchAdd N = 1 ∧ cnt s.pc PC.storeCount N = 0
      ∧ cnt s.pc PC.storeRelease N = 0 ∧ cnt s.pc PC.openGate N = 0 := by
    rcases hph with hA | hB <;> omega
  clear hph
  have hp := place_of_counts (setAt s.pc i PC.spinRelease) N j hj (fun X => X = PC.spinRelease)
    (by
      intro X hX
      have a := cnt_setAt s.pc i PC.spinRelease X N hi
      rw [hpc] at a
      cases X <;> simp at hX <;> simp only [reduceCtorEq, if_true, if_false] at a <;> omega)
  simpa [setAt_other _ _ _ _ hne] using hp

/-- C15 (single resetter per round): with exactly `N >= 1` threads the number of resets is 0
at construction and, in every reachable state: a step brings a thread to the first reset
store exactly when it is a `fetch_add` returning `N - 1`, and exactly these steps raise the
number of resets by one; every thread's completed calls are the number of resets or one
less, and its increments of `counterValueRelease` and decrements of `counterValue` are the
number of resets or one more (so no call completes without its round's reset, and no round
is reset twice); when a `fetch_add` is about to return `N - 1` all other threads stand at
the final spin with their increment of this round done; while a thread stands at one of the
three reset stores no other thread does, and every one of the `N` threads has performed
exactly as many increments and as many decrements as there have been resets (from one reset
to the next each thread decrements once and increments once: `N` of each). -/
theorem single_resetter (N : Nat) (hN1 : 1 ≤ N) (hN : N < 2147483648) (s : State)
    (hs : Reachable N (N : Int) s) :
    resets N (busywaiting_barrier N) = 0
      ∧ (∀ j, j < N →
        ((step s j).pc j = PC.storeCount
          ↔ s.pc j = PC.fetchAdd ∧ s.counterValueRelease = (N : Int) - 1))
      ∧ (∀ j, j < N →
        resets N (step s j) = resets N s
          + (if s.pc j = PC.fetchAdd ∧ s.counterValueRelease = (N : Int) - 1 then 1 else 0))
      ∧ (∀ j, j < N →
        s.done j ≤ resets N s ∧ resets N s ≤ s.done j + 1
          ∧ resets N s ≤ increments s j ∧ increments s j ≤ resets N s + 1
          ∧ resets N s ≤ decrements s j ∧ decrements s j ≤ resets N s + 1)
      ∧ (∀ i, i < N → s.pc i = PC.fetchAdd → s.counterValueRelease = (N : Int) - 1 →
        ∀ j, j < N → j ≠ i → s.pc j = PC.spinRelease ∧ increments s j = resets N s + 1)
      ∧ (∀ i, i < N →
        s.pc i = PC.storeCount ∨ s.pc i = PC.storeRelease ∨ s.pc i = PC.openGate →
        (∀ j, j < N → j ≠ i →
          s.pc j ≠ PC.storeCount ∧ s.pc j ≠ PC.storeRelease ∧ s.pc j ≠ PC.openGate)
        ∧ (∀ j, j < N → increments s j = resets N s ∧ decrements s j = resets N s)) := by
  have hinv := reachable_inv hN1 hN hs
  obtain ⟨⟨hmax, hph⟩, hsync⟩ := hinv
  have hw : wrap32 (s.counterValueMax - 1) = (N : Int) - 1 := by
    rw [hmax]
    exact wrap32_eq _ (by omega) (by omega)
  have hD : ∀ i, i < N → s.pc i = PC.fetchAdd → s.counterValueRelease = (N : Int) - 1 →
      ∀ j, j < N → j ≠ i → s.pc j = PC.spinRelease ∧ increments s j = resets N s + 1 := by
    intro i hi hpc hc j hj hne
    have hl := last_increment hN1 (reachable_inv hN1 hN hs) hi hpc hc j hj hne
    have hi0 := last_increment hN1 (reachable_inv hN1 hN hs) hi hpc hc
    refine ⟨hl, ?_⟩
    have z5 := cnt_zero_of_forall_ne s.pc PC.storeCount N (fun k hk => by
      by_cases e : k = i
      · rw [e, hpc]; simp
      · rw [hi0 k hk e]; simp)
    have z6 := cnt_zero_of_forall_ne s.pc PC.storeRelease N (fun k hk => by
      by_cases e : k = i
      · rw [e, hpc]; simp
      · rw [hi0 k hk e]; simp)
    have hsy := hsync j 0 hj (by omega)
    have hpos : 0 < s.counterValueRelease := by omega
    unfold resets increments
    rw [← hsy, z5, z6]
    unfold passed
    have hne0 : s.counterValueRelease ≠ 0 := by omega
    simp [hl, hne0]
  refine ⟨resets_init N, ?_, fun j hj => resets_step hN1 hN (reachable_inv hN1 hN hs) hj,
    fun j hj => resets_bounds hN1 (reachable_inv hN1 hN hs) hj, hD, ?_⟩
  · intro j _
    unfold step
    cases hpc : s.pc j <;> simp only [hpc, hw]
    · simp [goto, setAt]
    · split <;> simp [goto, setAt, hpc]
    · split <;> simp [goto, setAt]
    · simp [goto, setAt]
    · split <;> simp [goto, setAt, hpc]
    · split <;> simp_all [goto, setAt]
    · simp [goto, setAt]
    · simp [goto, setAt]
    · simp [goto, setAt]
    · split <;> simp [goto, setAt, hpc]
  · intro i hi hin
    have tot := cnt_total s.pc N
    have pos := cnt_pos s.pc (s.pc i) N i hi rfl
    simp only [Arriving, Leaving] at hph
    constructor
    · have a5 := cnt_setAt s.pc i PC.idle PC.storeCount N hi
      have a6 := cnt_setAt s.pc i PC.idle PC.storeRelease N hi
      have a7 := cnt_setAt s.pc i PC.idle PC.openGate N hi
      simp only [reduceCtorEq, if_false] at a5 a6 a7
      have hle : cnt s.pc PC.storeCount N + cnt s.pc PC.storeRelease N
          + cnt s.pc PC.openGate N ≤ 1 := by
        rcases hph with hA | hB <;> omega
      have z : cnt (setAt s.pc i PC.idle) PC.storeCount N = 0
          ∧ cnt (setAt s.pc i PC.idle) PC.storeRelease N = 0
          ∧ cnt (setAt s.pc i PC.idle) PC.openGate N = 0 := by
        rcases hin with h | h | h <;> rw [h] at pos <;>
          simp only [h, reduceCtorEq, if_true, if_false] at a5 a6 a7 <;> omega
      intro j hj hne
      have n5 := ne_of_cnt_zero _ _ N j hj z.1
      have n6 := ne_of_cnt_zero _ _ N j hj z.2.1
      have n7 := ne_of_cnt_zero _ _ N j hj z.2.2
      rw [setAt_other _ _ _ _ hne] at n5 n6 n7
      exact ⟨n5, n6, n7⟩
    · intro j hj
      have hsy := hsync j 0 hj (by omega)
      by_cases hB : s.pc i = PC.storeCount ∨ s.pc i = PC.storeRelease
      · have f : 0 < s.counterValueRelease
            ∧ 1 ≤ cnt s.pc PC.storeCount N + cnt s.pc PC.storeRelease N
            ∧ cnt s.pc PC.spinRelease N + 1 = N := by
          rcases hB with h | h <;> rw [h] at pos <;> rcases hph with hA | hB <;> omega
        have hne : s.counterValueRelease ≠ 0 := by omega
        have hp := place_of_counts s.pc N j hj
          (fun X => X = PC.storeCount ∨ X = PC.storeRelease ∨ X = PC.spinRelease)
          (by
            intro X hX
            cases X <;> simp at hX <;> omega)
        unfold resets
        rw [if_pos f.2.1, ← hsy]
        unfold increments decrements passed
        rcases hp with h | h | h <;> simp [h, hne]
      · have h7 : s.pc i = PC.openGate := by
          rcases hin with h | h | h
          · exact absurd (Or.inl h) hB
          · exact absurd (Or.inr h) hB
          · exact h
        rw [h7] at pos
        have f : s.counterValueRelease = 0
            ∧ cnt s.pc PC.storeCount N + cnt s.pc PC.storeRelease N = 0
            ∧ cnt s.pc PC.fetchSub N + cnt s.pc PC.closeGate N + cnt s.pc PC.spinCount N
              + cnt s.pc PC.fetchAdd N = 0 := by
          rcases hph with hA | hB <;> omega
        have hp := place_of_counts s.pc N j hj
          (fun X => X = PC.idle ∨ X = PC.spinReady ∨ X = PC.openGate ∨ X = PC.spinRelease)
          (by
            intro X hX
            cases X <;> simp at hX <;> omega)
        unfold resets
        rw [if_neg (by omega), ← hsy]
        unfold increments decrements passed
        rcases hp with h | h | h | h <;> simp [h, f.1]

theorem single_resetter_witness :
    ((run (busywaiting_barrier 2) (oneRound 1 ++ [0, 0, 0, 1, 1, 1, 1, 0, 0, 1])).pc 1
          = PC.fetchAdd
        ∧ (run (busywaiting_barrier 2)
            (oneRound 1 ++ [0, 0, 0, 1, 1, 1, 1, 0, 0, 1])).counterValueRelease = 1
        ∧ (∀ j, j < 2 →
            (run (busywaiting_barrier 2) (oneRound 1 ++ [0, 0, 0, 1, 1, 1, 1, 0, 0, 1])).done j
              = 1)
        ∧ resets 2 (run (busywaiting_barrier 2) (oneRound 1 ++ [0, 0, 0, 1, 1, 1, 1, 0, 0, 1]))
            = 1)
      ∧ (step (run (busywaiting_barrier 2) (oneRound 1 ++ [0, 0, 0, 1, 1, 1, 1, 0, 0, 1])) 1).pc 1
          = PC.storeCount
      ∧ resets 2
          (step (run (busywaiting_barrier 2) (oneRound 1 ++ [0, 0, 0, 1, 1, 1, 1, 0, 0, 1])) 1)
          = resets 2
              (run (busywaiting_barrier 2) (oneRound 1 ++ [0, 0, 0, 1, 1, 1, 1, 0, 0, 1])) + 1
      ∧ ((run (busywaiting_barrier 2) (oneRound 1 ++ [0, 0, 0, 1, 1, 1, 1, 0, 0, 1])).pc 0
            = PC.spinRelease
          ∧ increments
              (run (busywaiting_barrier 2) (oneRound 1 ++ [0, 0, 0, 1, 1, 1, 1, 0, 0, 1])) 0
            = resets 2
                (run (busywaiting_barrier 2) (oneRound 1 ++ [0, 0, 0, 1, 1, 1, 1, 0, 0, 1])) + 1)
      ∧ ((run (busywaiting_barrier 2) (oneRound 1 ++ [0, 0, 0, 1, 1, 1, 1, 0, 0, 1, 1])).pc 1
            = PC.storeCount
          ∧ resets 2
              (run (busywaiting_barrier 2) (oneRound 1 ++ [0, 0, 0, 1, 1, 1, 1, 0, 0, 1, 1]))
            = 2)
      ∧ (∀ j, j < 2 → j ≠ 1 →
          (run (busywaiting_barrier 2) (oneRound 1 ++ [0, 0, 0, 1, 1, 1, 1, 0, 0, 1, 1])).pc j
              ≠ PC.storeCount
            ∧ (run (busywaiting_barrier 2)
                (oneRound 1 ++ [0, 0, 0, 1, 1, 1, 1, 0, 0, 1, 1])).pc j ≠ PC.storeRelease
            ∧ (run (busywaiting_barrier 2)
                (oneRound 1 ++ [0, 0, 0, 1, 1, 1, 1, 0, 0, 1, 1])).pc j ≠ PC.openGate)
      ∧ (∀ j, j < 2 →
          increments
              (run (busywaiting_barrier 2) (oneRound 1 ++ [0, 0, 0, 1, 1, 1, 1, 0, 0, 1, 1])) j
            = resets 2
                (run (busywaiting_barrier 2) (oneRound 1 ++ [0, 0, 0, 1, 1, 1, 1, 0, 0, 1, 1]))
          ∧ decrements
              (run (busywaiting_barrier 2) (oneRound 1 ++ [0, 0, 0, 1, 1, 1, 1, 0, 0, 1, 1])) j
            = resets 2
                (run (busywaiting_barrier 2)
                  (oneRound 1 ++ [0, 0, 0, 1, 1, 1, 1, 0, 0, 1, 1]))) :=
  have h1 := single_resetter 2 (by decide) (by decide) _
    (reachable_run 2 2 (oneRound 1 ++ [0, 0, 0, 1, 1, 1, 1, 0, 0, 1]) (by decide))
  have h2 := single_resetter 2 (by decide) (by decide) _
    (reachable_run 2 2 (oneRound 1 ++ [0, 0, 0, 1, 1, 1, 1, 0, 0, 1, 1]) (by decide))
  ⟨by decide,
    (h1.2.1 1 (by decide)).2 (by decide),
    (h1.2.2.1 1 (by decide)).trans (by decide),
    h1.2.2.2.2.1 1 (by decide) (by decide) (by decide) 0 (by decide) (by decide),
    by decide,
    (h2.2.2.2.2.2 1 (by decide) (Or.inl (by decide))).1,
    (h2.2.2.2.2.2 1 (by decide) (Or.inl (by decide))).2⟩

end Barrier

/-! ## More threads than the barrier was constructed for -/

namespace Barrier

theorem shape_init (N : Int) :
    Shape (busywaiting_barrier N) N 0 true N (fun _ => PC.idle) (fun _ => 0) :=
  ⟨rfl, rfl, rfl, rfl, fun _ => rfl, fun _ => rfl⟩

/-- Thread `j`, not the last to arrive, calls `wait()`, passes the entry spin and decrements
`counterValue`. -/
theorem arrive_one (n j : Nat) (s : State) (hn : n + 1 < 2147483648) (hj : j < n)
    (h : Shape s ((n : Int) + 1 - (j : Nat)) 0 true ((n : Int) + 1)
      (fun i => if i < j then PC.spinCount else PC.idle) (fun _ => 0)) :
    Shape (run s [j, j, j]) ((n : Int) + 1 - (j + 1 : Nat)) 0 true ((n : Int) + 1)
      (fun i => if i < j + 1 then PC.spinCount else PC.idle) (fun _ => 0) := by
  obtain ⟨h1, h2, h3, h4, h5, h6⟩ := h
  have pj : s.pc j = PC.idle := by rw [h5]; simp
  have hne : ¬ ((n : Int) + 1 - j = 1) := by omega
  have hw : wrap32 ((n : Int) + 1 - j - 1) = (n : Int) + 1 - (j + 1 : Nat) := by
    rw [wrap32_eq _ (by omega) (by omega)]
    push_cast
    ring
  refine ⟨?_, ?_, ?_, ?_, ?_, ?_⟩
  · simp [run, step, goto, setAt, pj, h1, h3, hne, hw]
  · simp [run, step, goto, setAt, pj, h1, h3, hne, h2]
  · simp [run, step, goto, setAt, pj, h1, h3, hne]
  · simp [run, step, goto, setAt, pj, h1, h3, hne, h4]
  · intro i
    simp only [run, List.foldl, step, goto, setAt, pj, h1, h3, hne, h5, if_true, if_false]
    split_ifs <;> first | rfl | (exfalso; omega)
  · intro i
    simp [run, step, goto, setAt, pj, h1, h3, hne, h6]

theorem arrive_all (n : Nat) (s : State) (hn : n + 1 < 2147483648)
    (h : Shape s ((n : Int) + 1) 0 true ((n : Int) + 1) (fun _ => PC.idle) (fun _ => 0)) :
    ∀ j, j ≤ n → Shape (run s (arrivals j)) ((n : Int) + 1 - (j : Nat)) 0 true ((n : Int) + 1)
      (fun i => if i < j then PC.spinCount else PC.idle) (fun _ => 0) := by
  intro j
  induction j with
  | zero =>
    intro _
    simpa [arrivals, run] using h
  | succ j ih =>
    intro hj
    rw [arrivals, run_append]
    exact arrive_one n j _ hn (by omega) (ih (by omega))

/-- Thread `n` arrives last: it observes 1 at the decrement and closes the gate. -/
theorem arrive_last (n : Nat) (s : State)
    (h : Shape s ((n : Int) + 1 - (n : Nat)) 0 true ((n : Int) + 1)
      (fun i => if i < n then PC.spinCount else PC.idle) (fun _ => 0)) :
    Shape (run s [n, n, n, n]) 0 ((0 : Nat) : Int) false ((n : Int) + 1)
      (fun i => if i < 0 then PC.spinRelease else if i < n + 1 then PC.spinCount else PC.idle)
      (fun _ => 0) := by
  obtain ⟨h1, h2, h3, h4, h5, h6⟩ := h
  have pj : s.pc n = PC.idle := by rw [h5]; simp
  have h1' : s.counterValue = 1 := by omega
  have hw : wrap32 0 = 0 := by decide
  refine ⟨?_, ?_, ?_, ?_, ?_, ?_⟩
  · simp [run, step, goto, setAt, pj, h1', h3, hw]
  · simp [run, step, goto, setAt, pj, h1', h3, h2]
  · simp [run, step, goto, setAt, pj, h1', h3]
  · simp [run, step, goto, setAt, pj, h1', h3, h4]
  · intro i
    simp only [run, List.foldl, step, goto, setAt, pj, h1', h3, h5, if_true, if_false]
    split_ifs <;> first | rfl | (exfalso; omega)
  · intro i
    simp [run, step, goto, setAt, pj, h1', h3, h6]

/-- Thread `j`, not the last to depart, leaves the spin on `counterValue` and increments
`counterValueRelease`. -/
theorem depart_one (n j : Nat) (s : State) (hn : n + 1 < 2147483648) (hj : j < n)
    (h : Shape s 0 (j : Nat) false ((n : Int) + 1)
      (fun i => if i < j then PC.spinRelease else if i < n + 1 then PC.spinCount else PC.idle)
      (fun _ => 0)) :
    Shape (run s [j, j]) 0 (j + 1 : Nat) false ((n : Int) + 1)
      (fun i =>
        if i < j + 1 then PC.spinRelease else if i < n + 1 then PC.spinCount else PC.idle)
      (fun _ => 0) := by
  obtain ⟨h1, h2, h3, h4, h5, h6⟩ := h
  have pj : s.pc j = PC.spinCount := by
    rw [h5]
    simp only [Nat.lt_irrefl, if_false]
    rw [if_pos (by omega)]
  have hne : ¬ ((j : Int) = wrap32 ((n : Int) + 1 - 1)) := by
    rw [wrap32_eq _ (by omega) (by omega)]
    omega
  have hne' : ¬ ((j : Int) = wrap32 (n : Int)) := by
    rw [wrap32_eq _ (by omega) (by omega)]
    omega
  have hw : wrap32 ((j : Int) + 1) = ((j + 1 : Nat) : Int) := by
    rw [wrap32_eq _ (by omega) (by omega)]
    push_cast
    ring
  refine ⟨?_, ?_, ?_, ?_, ?_, ?_⟩
  · simp [run, step, goto, setAt, pj, h1, h2, h4, hne']
  · simp only [run, List.foldl, step, goto, setAt, pj, h1, h2, h4, hne, if_true, if_false,
      gt_iff_lt, Int.lt_irrefl, hw]
  · simp [run, step, goto, setAt, pj, h1, h2, h4, hne', h3]
  · simp [run, step, goto, setAt, pj, h1, h2, h4, hne']
  · intro i
    simp only [run, List.foldl, step, goto, setAt, pj, h1, h2, h4, hne, h5, if_true, if_false,
      gt_iff_lt, Int.lt_irrefl]
    split_ifs <;> first | rfl | (exfalso; omega)
  · intro i
    simp [run, step, goto, setAt, pj, h1, h2, h4, hne', h6]

theorem depart_all (n : Nat) (s : State) (hn : n + 1 < 2147483648)
    (h : Shape s 0 ((0 : Nat) : Int) false ((n : Int) + 1)
      (fun i => if i < 0 then PC.spinRelease else if i < n + 1 then PC.spinCount else PC.idle)
      (fun _ => 0)) :
    ∀ j, j ≤ n → Shape (run s (departures j)) 0 (j : Nat) false ((n : Int) + 1)
      (fun i => if i < j then PC.spinRelease else if i < n + 1 then PC.spinCount else PC.idle)
      (fun _ => 0) := by
  intro j
  induction j with
  | zero =>
    intro _
    simpa [departures, run] using h
  | succ j ih =>
    intro hj
    rw [departures, run_append]
    exact depart_one n j _ hn (by omega) (ih (by omega))

/-- Thread `n` departs last: its `fetch_add` returns `n`, it runs the three reset stores and
leaves the final spin. -/
theorem depart_last (n : Nat) (s : State) (hn : n + 1 < 2147483648)
    (h : Shape s 0 (n : Nat) false ((n : Int) + 1)
      (fun i => if i < n then PC.spinRelease else if i < n + 1 then PC.spinCount else PC.idle)
      (fun _ => 0)) :
    Shape (run s [n, n, n, n, n, n]) ((n : Int) + 1) 0 true ((n : Int) + 1)
      (fun i => if i < 0 then PC.idle else if i < n then PC.spinRelease else PC.idle)
      (fun i => if i < 0 ∨ i = n then 1 else 0) := by
  obtain ⟨h1, h2, h3, h4, h5, h6⟩ := h
  have pj : s.pc n = PC.spinCount := by
    rw [h5]
    simp
  have he : wrap32 ((n : Int) + 1 - 1) = (n : Int) := by
    rw [wrap32_eq _ (by omega) (by omega)]
    omega
  have he' : wrap32 (n : Int) = (n : Int) := wrap32_eq _ (by omega) (by omega)
  refine ⟨?_, ?_, ?_, ?_, ?_, ?_⟩
  · simp [run, step, goto, setAt, pj, h1, h2, h4, he']
  · simp [run, step, goto, setAt, pj, h1, h2, h4, he']
  · simp [run, step, goto, setAt, pj, h1, h2, h4, he']
  · simp [run, step, goto, setAt, pj, h1, h2, h4, he']
  · intro i
    simp only [run, List.foldl, step, goto, setAt, pj, h1, h2, h4, he, h5, if_true, if_false,
      gt_iff_lt, Int.lt_irrefl]
    split_ifs <;> first | rfl | (exfalso; omega)
  · intro i
    simp only [run, List.foldl, step, goto, setAt, pj, h1, h2, h4, he, h6, if_true, if_false,
      gt_iff_lt, Int.lt_irrefl]
    split_ifs <;> first | rfl | (exfalso; omega)

/-- Thread `j` finds `counterValueRelease` cleared and returns from `wait()`. -/
theorem return_one (n j : Nat) (s : State) (hj : j < n)
    (h : Shape s ((n : Int) + 1) 0 true ((n : Int) + 1)
      (fun i => if i < j then PC.idle else if i < n then PC.spinRelease else PC.idle)
      (fun i => if i < j ∨ i = n then 1 else 0)) :
    Shape (run s [j]) ((n : Int) + 1) 0 true ((n : Int) + 1)
      (fun i => if i < j + 1 then PC.idle else if i < n then PC.spinRelease else PC.idle)
      (fun i => if i < j + 1 ∨ i = n then 1 else 0) := by
  obtain ⟨h1, h2, h3, h4, h5, h6⟩ := h
  have pj : s.pc j = PC.spinRelease := by
    rw [h5]
    simp only [Nat.lt_irrefl, if_false]
    rw [if_pos hj]
  have dj : s.done j = 0 := by
    rw [h6]
    beta_reduce
    rw [if_neg (by omega)]
  refine ⟨?_, ?_, ?_, ?_, ?_, ?_⟩
  · simp [run, step, goto, setAt, pj, h1, h2]
  · simp [run, step, goto, setAt, pj, h2]
  · simp [run, step, goto, setAt, pj, h2, h3]
  · simp [run, step, goto, setAt, pj, h2, h4]
  · intro i
    simp only [run, List.foldl, step, goto, setAt, pj, h2, h5, if_true, if_false,
      gt_iff_lt, Int.lt_irrefl]
    split_ifs <;> first | rfl | (exfalso; omega)
  · intro i
    simp only [run, List.foldl, step, goto, setAt, pj, h2, h6, dj, if_true, if_false,
      gt_iff_lt, Int.lt_irrefl]
    split_ifs <;> first | rfl | (exfalso; omega)

theorem return_all (n : Nat) (s : State)
    (h : Shape s ((n : Int) + 1) 0 true ((n : Int) + 1)
      (fun i => if i < 0 then PC.idle else if i < n then PC.spinRelease else PC.idle)
      (fun i => if i < 0 ∨ i = n then 1 else 0)) :
    ∀ j, j ≤ n → Shape (run s (returns j)) ((n : Int) + 1) 0 true ((n : Int) + 1)
      (fun i => if i < j then PC.idle else if i < n then PC.spinRelease else PC.idle)
      (fun i => if i < j ∨ i = n then 1 else 0) := by
  intro j
  induction j with
  | zero =>
    intro _
    simpa [returns, run] using h
  | succ j ih =>
    intro hj
    rw [returns, run_append]
    exact return_one n j _ (by omega) (ih (by omega))

/-- The threads `0 .. n` of a barrier constructed with `n + 1` complete one round among
themselves. -/
theorem one_round (n : Nat) (hn : n + 1 < 2147483648) :
    Shape (run (busywaiting_barrier ((n : Int) + 1)) (oneRound n)) ((n : Int) + 1) 0 true
      ((n : Int) + 1) (fun _ => PC.idle) (fun i => if i < n + 1 then 1 else 0) := by
  have a := arrive_all n _ hn (shape_init ((n : Int) + 1)) n (Nat.le_refl n)
  have b := arrive_last n _ a
  have c := depart_all n _ hn b n (Nat.le_refl n)
  have d := depart_last n _ hn c
  have e := return_all n _ d n (Nat.le_refl n)
  simp only [oneRound, run_append]
  obtain ⟨e1, e2, e3, e4, e5, e6⟩ := e
  refine ⟨e1, e2, e3, e4, ?_, ?_⟩
  · intro i
    rw [e5]
    beta_reduce
    split_ifs <;> rfl
  · intro i
    rw [e6]
    beta_reduce
    split_ifs <;> first | rfl | (exfalso; omega)

end Barrier

namespace Barrier

theorem mem_arrivals (j i : Nat) (h : i ∈ arrivals j) : i < j := by
  induction j with
  | zero => simp [arrivals] at h
  | succ j ih =>
    simp only [arrivals, List.mem_append, List.mem_cons, List.mem_singleton, or_self,
      List.not_mem_nil, or_false] at h
    rcases h with h | h
    · have := ih h
      omega
    · omega

theorem mem_departures (j i : Nat) (h : i ∈ departures j) : i < j := by
  induction j with
  | zero => simp [departures] at h
  | succ j ih =>
    simp only [departures, List.mem_append, List.mem_cons, List.mem_singleton, or_self,
      List.not_mem_nil, or_false] at h
    rcases h with h | h
    · have := ih h
      omega
    · omega

theorem mem_returns (j i : Nat) (h : i ∈ returns j) : i < j := by
  induction j with
  | zero => simp [returns] at h
  | succ j ih =>
    simp only [returns, List.mem_append, List.mem_cons, List.mem_singleton, or_self,
      List.not_mem_nil, or_false] at h
    rcases h with h | h
    · have := ih h
      omega
    · omega

theorem mem_oneRound (n i : Nat) (h : i ∈ oneRound n) : i < n + 1 := by
  simp only [oneRound, List.mem_append, List.mem_cons, List.mem_singleton, or_self,
    List.not_mem_nil, or_false] at h
  rcases h with (((h | h) | h) | h) | h
  · have := mem_arrivals n i h
    omega
  · omega
  · have := mem_departures n i h
    omega
  · omega
  · have := mem_returns n i h
    omega

end Barrier

/-! ## More threads than the barrier was constructed for: single steps and sweeps -/

namespace Barrier

end Barrier

/-! ## More threads than the barrier was constructed for: the interleavings -/

namespace Barrier

end Barrier
